import Mathlib

/-!
Shallow embedding of the quantum-circuit optimizer (gate IR, DAG, optimization
passes, topology and SABRE router) together with proofs about the claims of
its specification.

Conventions of the embedding:
* C++ `std::size_t` indices become `Nat`; sentinel values (`INVALID_GATE_ID`,
  `INVALID_LOGICAL`, `Topology::INFINITE`) become `Option` (`none` is the
  sentinel).
* `double` angles become `ℚ`.  The constant `constants::PI` is embedded as the
  exact rational value of the IEEE-754 double `3.14159265358979323846`
  (`884279719003555 / 2^48`).  All angle computations appearing in the claims
  below involve only halving, negation, addition and comparison of this value,
  which are exact in double precision, so the rational embedding agrees with
  the C++ semantics on those inputs.
* C++ functions that throw become `Except String`- or `Option`-valued
  functions; partial loops (the SABRE routing loop, path reconstruction)
  receive an explicit fuel argument and return `none` when the fuel is
  exhausted.
* `std::unordered_map<GateId, ...>` node containers are embedded as
  association lists kept in ascending-id insertion order; where the C++
  iterates such a container in unspecified order, the embedding iterates in
  that (ascending id) order.  Each theorem whose truth value could depend on
  this modeling choice is stated on inputs for which the choice is irrelevant
  (for example a unique Kahn source).
-/

namespace QOpt

/-- Embedding of `enum class GateType` from `Gate.hpp`. -/
inductive GateType where
  | H | X | Y | Z | S | Sdg | T | Tdg
  | Rx | Ry | Rz
  | CNOT | CZ | SWAP
deriving DecidableEq, Repr

/-- Embedding of `numQubitsFor` (Gate.hpp): two-qubit kinds are CNOT, CZ,
SWAP; everything else acts on one qubit. -/
def numQubitsFor : GateType → Nat
  | .CNOT => 2
  | .CZ => 2
  | .SWAP => 2
  | _ => 1

/-- Embedding of `isParameterized` (Gate.hpp): Rx, Ry, Rz carry an angle. -/
def isParameterizedType : GateType → Bool
  | .Rx => true
  | .Ry => true
  | .Rz => true
  | _ => false

/-- Embedding of `isHermitian` (Gate.hpp). -/
def isHermitian : GateType → Bool
  | .H => true
  | .X => true
  | .Y => true
  | .Z => true
  | .CNOT => true
  | .CZ => true
  | .SWAP => true
  | _ => false

/-- Angles (`using Angle = double`) are embedded as exact rationals. -/
abbrev Angle := ℚ

/-- Embedding of class `Gate` (Gate.hpp): type, qubit operands, optional
parameter, id.  The C++ constructor runs `validate()`; the checked
construction is `Gate.make` below, and raw structure values are used where
the C++ code builds gates it has already validated. -/
structure Gate where
  type : GateType
  qubits : List Nat
  parameter : Option Angle := none
  id : Nat := 0
deriving DecidableEq, Repr

/-- Embedding of `Gate::validate()` (Gate.hpp lines 343-357): the operand
count must match the arity, and a parameterized kind must carry an angle.
No other condition is checked there. -/
def Gate.validateOk (t : GateType) (qs : List Nat) (p : Option Angle) : Bool :=
  qs.length == numQubitsFor t && (!isParameterizedType t || p.isSome)

/-- Embedding of the `Gate` constructor: builds the gate when `validate()`
passes and fails (`std::invalid_argument`) otherwise. -/
def Gate.make (t : GateType) (qs : List Nat) (p : Option Angle := none)
    (id : Nat := 0) : Except String Gate :=
  if Gate.validateOk t qs p then .ok ⟨t, qs, p, id⟩ else .error "InvalidGate"

/-- Embedding of the factory `Gate::cnot` (Gate.hpp lines 236-242): rejects
equal control and target, then delegates to the constructor. -/
def Gate.cnotE (control target : Nat) : Except String Gate :=
  if control == target then .error "InvalidGate"
  else Gate.make .CNOT [control, target]

/-- Embedding of the factory `Gate::cz` (Gate.hpp lines 246-252). -/
def Gate.czE (control target : Nat) : Except String Gate :=
  if control == target then .error "InvalidGate"
  else Gate.make .CZ [control, target]

/-- Embedding of the factory `Gate::swap` (Gate.hpp lines 256-262). -/
def Gate.swapE (q1 q2 : Nat) : Except String Gate :=
  if q1 == q2 then .error "InvalidGate"
  else Gate.make .SWAP [q1, q2]

/-- The id-insensitive content of a gate; `Gate::operator==` compares exactly
these three fields. -/
def Gate.core (g : Gate) : GateType × List Nat × Option Angle :=
  (g.type, g.qubits, g.parameter)

/-- Convenience constructors for the valid gates used in concrete examples
(mirroring the C++ factories on inputs where they do not throw). -/
def Gate.h (q : Nat) : Gate := ⟨.H, [q], none, 0⟩

/-- Pauli-X gate value. -/
def Gate.x (q : Nat) : Gate := ⟨.X, [q], none, 0⟩

/-- Pauli-Z gate value. -/
def Gate.z (q : Nat) : Gate := ⟨.Z, [q], none, 0⟩

/-- CNOT gate value (callers of this shorthand always pass distinct qubits,
matching the factory's checked behaviour). -/
def Gate.cnot (c t : Nat) : Gate := ⟨.CNOT, [c, t], none, 0⟩

/-- Rz gate value. -/
def Gate.rz (q : Nat) (a : Angle) : Gate := ⟨.Rz, [q], some a, 0⟩

/-- SWAP gate value. -/
def Gate.swapG (a b : Nat) : Gate := ⟨.SWAP, [a, b], none, 0⟩

/-- Embedding of class `Circuit` (Circuit.hpp): a fixed qubit register, the
gate sequence, and the running id counter. -/
structure Circuit where
  numQubits : Nat
  gates : List Gate := []
  nextGateId : Nat := 0
deriving DecidableEq, Repr

/-- Embedding of `Circuit::addGate` (Circuit.hpp lines 90-94): assign the
next id and append.  The C++ validation (`validateGateQubits`, which throws
`std::out_of_range`) is modeled separately by `Circuit.gateInRange`; all
call sites in the claims add in-range gates. -/
def Circuit.addGate (c : Circuit) (g : Gate) : Circuit :=
  { c with
    gates := c.gates ++ [{ g with id := c.nextGateId }]
    nextGateId := c.nextGateId + 1 }

/-- The bound checked by `Circuit::validateGateQubits` / DAG
`validateGateQubits`: every operand is below the register size. -/
def Circuit.gateInRange (n : Nat) (g : Gate) : Bool :=
  g.qubits.all (· < n)

/-- A well-formed circuit: every gate passed `Gate::validate()` and every
operand is inside the register (the spec's §3 invariants). -/
def Circuit.WF (c : Circuit) : Prop :=
  ∀ g ∈ c.gates, Circuit.gateInRange c.numQubits g = true ∧
    Gate.validateOk g.type g.qubits g.parameter = true ∧
    g.qubits.Nodup

instance (c : Circuit) : Decidable c.WF := by
  unfold Circuit.WF; infer_instance

/-- Build a circuit from a list of gates (repeated `addGate`). -/
def Circuit.ofGates (n : Nat) (gs : List Gate) : Circuit :=
  gs.foldl Circuit.addGate { numQubits := n }

/-- Embedding of class `DAGNode` (DAG.hpp): the owned gate plus predecessor
and successor id lists (vectors, kept in C++ insertion order, duplicates
allowed -- the DAG is a multigraph). -/
structure DAGNode where
  gate : Gate
  predecessors : List Nat := []
  successors : List Nat := []
deriving DecidableEq, Repr

/-- Embedding of class `DAG` (DAG.hpp).  `nodes` embeds the id-keyed
`std::unordered_map` as an association list in ascending-id insertion order;
`lastGateOnQubit` embeds `last_gate_on_qubit_` with `none` for
`INVALID_GATE_ID`. -/
structure DAG where
  numQubits : Nat
  nextGateId : Nat := 0
  nodes : List (Nat × DAGNode) := []
  lastGateOnQubit : List (Option Nat) := List.replicate numQubits none
deriving DecidableEq, Repr

/-- Empty DAG over `n` qubits (the `DAG(std::size_t)` constructor; its
`0 < n ≤ MAX_QUBITS` checks are hypotheses of the relevant theorems). -/
def DAG.empty (n : Nat) : DAG := { numQubits := n }

/-- Association-list lookup of a node. -/
def DAG.find? (d : DAG) (id : Nat) : Option DAGNode :=
  (d.nodes.lookup id)

/-- Embedding of `DAG::hasNode`. -/
def DAG.hasNode (d : DAG) (id : Nat) : Bool :=
  (d.find? id).isSome

/-- Replace the node stored under `id` (no-op when absent), preserving the
container order. -/
def DAG.setNode (d : DAG) (id : Nat) (n : DAGNode) : DAG :=
  { d with nodes := d.nodes.map (fun p => if p.1 = id then (p.1, n) else p) }

/-- Apply `f` to the node stored under `id` (no-op when absent). -/
def DAG.modifyNode (d : DAG) (id : Nat) (f : DAGNode → DAGNode) : DAG :=
  { d with nodes := d.nodes.map (fun p => if p.1 = id then (p.1, f p.2) else p) }

/-- Embedding of `DAG::numNodes`. -/
def DAG.numNodes (d : DAG) : Nat := d.nodes.length

/-- Node ids in container order (`DAG::nodeIds`). -/
def DAG.nodeIds (d : DAG) : List Nat := d.nodes.map (·.1)

/-- Embedding of `DAG::sources`: ids of nodes with no predecessors, in
container order. -/
def DAG.sources (d : DAG) : List Nat :=
  (d.nodes.filter (fun p => p.2.predecessors.isEmpty)).map (·.1)

/-- Embedding of `DAG::hasEdge`: `to` occurs in the successor list of
`from`. -/
def DAG.hasEdge (d : DAG) (fromId toId : Nat) : Bool :=
  match d.find? fromId with
  | none => false
  | some n => if d.hasNode toId then toId ∈ n.successors else false

/-- Embedding of `DAG::addGate` (DAG.hpp lines 237-261): assign the next id,
then for each operand qubit `q` in order, wire an edge from `last[q]` (when
set) and update `last[q]` to the new id; finally insert the node.  The C++
`validateGateQubits` throw is modeled by the `gateInRange` hypothesis at the
call sites (every claim adds in-range gates only). -/
def addGateStep (id : Nat) (st : List Nat × DAG) (q : Nat) : List Nat × DAG :=
  match (st.2.lastGateOnQubit.getD q none) with
  | none =>
      (st.1, { st.2 with
        lastGateOnQubit := st.2.lastGateOnQubit.set q (some id) })
  | some pred =>
      (st.1 ++ [pred],
       let dag := st.2.modifyNode pred
         (fun n => { n with successors := n.successors ++ [id] })
       { dag with lastGateOnQubit := dag.lastGateOnQubit.set q (some id) })

def DAG.addGate (d : DAG) (g : Gate) : DAG :=
  let id := d.nextGateId
  let res := g.qubits.foldl (addGateStep id) ([], d)
  { res.2 with
    nextGateId := id + 1
    nodes := res.2.nodes ++
      [(id, { gate := { g with id := id }, predecessors := res.1 })] }

/-- Embedding of `DAG::fromCircuit` (DAG.hpp lines 214-222). -/
def DAG.fromCircuit (c : Circuit) : DAG :=
  c.gates.foldl DAG.addGate (DAG.empty c.numQubits)

/-- Embedding of `DAG::removeNode` (DAG.hpp lines 311-360).  Phase one walks
the target's predecessor list: each predecessor drops one occurrence of the
target from its successors and gains every successor of the target it does
not already list.  Phase two is symmetric for the successors.  Phase three
repairs `last[q]` for each operand of the target: when `last[q]` is the
target, it becomes the first entry of the target's predecessor list whose
gate touches `q` (or `none`).  Finally the node is erased.  Removing an
absent id (a C++ `std::out_of_range` throw) leaves the DAG unchanged. -/
def DAG.removeNode (d : DAG) (id : Nat) : DAG :=
  match d.find? id with
  | none => d
  | some target =>
    let d1 := target.predecessors.foldl
      (fun dag predId =>
        let dag := dag.modifyNode predId
          (fun n => { n with successors := n.successors.erase id })
        target.successors.foldl
          (fun dag succId =>
            match dag.find? predId with
            | none => dag
            | some pn =>
                if succId ∈ pn.successors then dag
                else dag.setNode predId
                  { pn with successors := pn.successors ++ [succId] })
          dag)
      d
    let d2 := target.successors.foldl
      (fun dag succId =>
        let dag := dag.modifyNode succId
          (fun n => { n with predecessors := n.predecessors.erase id })
        target.predecessors.foldl
          (fun dag predId =>
            match dag.find? succId with
            | none => dag
            | some sn =>
                if predId ∈ sn.predecessors then dag
                else dag.setNode succId
                  { sn with predecessors := sn.predecessors ++ [predId] })
          dag)
      d1
    let d3 := target.gate.qubits.foldl
      (fun dag q =>
        if dag.lastGateOnQubit.getD q none = some id then
          let newLast := target.predecessors.find?
            (fun predId =>
              match dag.find? predId with
              | none => false
              | some pn => q ∈ pn.gate.qubits)
          { dag with lastGateOnQubit := dag.lastGateOnQubit.set q newLast }
        else dag)
      d2
    { d3 with nodes := d3.nodes.filter (fun p => p.1 ≠ id) }

/-- Update an association list at a key (no-op when the key is absent). -/
def assocSet (l : List (Nat × Nat)) (k v : Nat) : List (Nat × Nat) :=
  l.map (fun p => if p.1 = k then (p.1, v) else p)

/-- Decrement-and-collect step of Kahn's algorithm (the body of the
`while (!ready.empty())` loop in `DAG::topologicalOrder`, DAG.hpp lines
451-462): walk the successor list of the popped node, decrement each
successor's tracked in-degree, and collect (in list order) every successor
whose count reaches exactly zero (`--in_degree[succ_id] == 0`).  Successors
are always tracked keys on the DAGs this runs on, so an absent key is a
no-op here. -/
def kahnDecStep (st : List (Nat × Nat) × List Nat) (s : Nat) :
    List (Nat × Nat) × List Nat :=
  match st.1.lookup s with
  | none => st
  | some k =>
      (assocSet st.1 s (k - 1), if k = 1 then st.2 ++ [s] else st.2)

def kahnDecrement (succs : List Nat) (indeg : List (Nat × Nat)) :
    List (Nat × Nat) × List Nat :=
  succs.foldl kahnDecStep (indeg, [])

/-- The queue-driven loop of Kahn's algorithm with explicit fuel.  The C++
uses a FIFO `std::queue`; newly ready nodes are appended at the back.  The
output is accumulated in reverse. -/
def kahnLoop (d : DAG) : Nat → List Nat → List (Nat × Nat) → List Nat → List Nat
  | 0, _, _, acc => acc.reverse
  | _ + 1, [], _, acc => acc.reverse
  | fuel + 1, cur :: rest, indeg, acc =>
      let succs := match d.find? cur with
        | none => []
        | some n => n.successors
      let (indeg1, ready) := kahnDecrement succs indeg
      kahnLoop d fuel (rest ++ ready) indeg1 (cur :: acc)

/-- Embedding of `DAG::topologicalOrder` (DAG.hpp lines 429-470) minus the
final cycle check: in-degrees are taken per node, the queue is seeded with
the zero-in-degree nodes in container order (the C++ seeds it from an
`unordered_map` in unspecified order; see the header comment), and the FIFO
loop runs.  Fuel `numNodes` suffices because every node is popped at most
once. -/
def DAG.topologicalOrderRaw (d : DAG) : List Nat :=
  let indeg := d.nodes.map (fun p => (p.1, p.2.predecessors.length))
  let seeds := (indeg.filter (fun p => p.2 == 0)).map (·.1)
  kahnLoop d d.nodes.length seeds indeg []

/-- Embedding of `DAG::topologicalOrder` including the cycle check: the C++
throws `std::logic_error` when the produced order misses nodes. -/
def DAG.topologicalOrder (d : DAG) : Except String (List Nat) :=
  let r := d.topologicalOrderRaw
  if r.length = d.nodes.length then .ok r else .error "CycleDetected"

/-- The loop body of `DAG::toCircuit` (DAG.hpp lines 549-553): append the
node's gate to the fresh circuit (which re-assigns ids). -/
def toCircuitStep (d : DAG) (c : Circuit) (id : Nat) : Circuit :=
  match d.find? id with
  | none => c
  | some n => c.addGate ⟨n.gate.type, n.gate.qubits, n.gate.parameter, 0⟩

/-- Embedding of `DAG::toCircuit` (DAG.hpp lines 545-555): emit the gates in
topological order into a fresh circuit (which re-assigns ids). -/
def DAG.toCircuit (d : DAG) : Except String Circuit := do
  let order ← d.topologicalOrder
  return order.foldl (toCircuitStep d) { numQubits := d.numQubits }

/-- Embedding of `CancellationPass::areCancellingPair` (CancellationPass.hpp
lines 148-177): Hermitian kinds cancel with an equal kind; S/Sdg and T/Tdg
are adjoint pairs; nothing else cancels. -/
def areCancellingPair (g1 g2 : Gate) : Bool :=
  if isHermitian g1.type then g1.type == g2.type
  else
    match g1.type with
    | .S => g2.type == .Sdg
    | .Sdg => g2.type == .S
    | .T => g2.type == .Tdg
    | .Tdg => g2.type == .T
    | _ => false

/-- Embedding of `CancellationPass::areAdjacentOnSameQubits`
(CancellationPass.hpp lines 113-134): equal ordered operand tuples plus a
direct edge. -/
def areAdjacentOnSameQubits (d : DAG) (id1 id2 : Nat) : Bool :=
  match d.find? id1, d.find? id2 with
  | some n1, some n2 =>
      if n1.gate.qubits == n2.gate.qubits then d.hasEdge id1 id2 else false
  | _, _ => false

/-- The marking sweep of `CancellationPass::run` (CancellationPass.hpp lines
64-89): walk the topological order; an unmarked node scans its successors in
order and marks itself together with the first unmarked successor forming a
cancelling adjacent pair, then stops scanning. -/
def cancellationMarks (d : DAG) (order : List Nat) : List Nat :=
  order.foldl
    (fun marks id =>
      if id ∈ marks then marks
      else if !d.hasNode id then marks
      else
        match d.find? id with
        | none => marks
        | some node =>
            match node.successors.find?
              (fun succId =>
                if succId ∈ marks then false
                else if !d.hasNode succId then false
                else
                  match d.find? succId with
                  | none => false
                  | some succNode =>
                      areAdjacentOnSameQubits d id succId &&
                      areCancellingPair node.gate succNode.gate) with
            | none => marks
            | some succId => marks ++ [id, succId])
    []

/-- Embedding of `CancellationPass::run` (CancellationPass.hpp lines 55-97):
mark cancelling pairs over the topological order (on a cycle error the C++
would throw out of `topologicalOrder`; that case is returned unchanged with
count 0), then remove the marked nodes in reverse order.  Returns the new
DAG together with `gates_removed`, which the C++ advances by two per marked
pair, hence equals the length of the mark list. -/
def cancellationRun (d : DAG) : DAG × Nat :=
  match d.topologicalOrder with
  | .error _ => (d, 0)
  | .ok order =>
      let marks := cancellationMarks d order
      let d1 := order.reverse.foldl
        (fun dag id =>
          if id ∈ marks && dag.hasNode id then dag.removeNode id else dag)
        d
      (d1, marks.length)

/-- Embedding of `CommutationPass::isDiagonal` (CommutationPass.hpp lines
113-126). -/
def isDiagonal : GateType → Bool
  | .Z => true
  | .S => true
  | .Sdg => true
  | .T => true
  | .Tdg => true
  | .Rz => true
  | .CZ => true
  | _ => false

/-- Embedding of `CommutationPass::isZLike` (CommutationPass.hpp lines
184-196). -/
def isZLike : GateType → Bool
  | .Z => true
  | .S => true
  | .Sdg => true
  | .T => true
  | .Tdg => true
  | .Rz => true
  | _ => false

/-- Embedding of `CommutationPass::qubitsOverlap` (CommutationPass.hpp lines
201-210). -/
def qubitsOverlap (g1 g2 : Gate) : Bool :=
  g1.qubits.any (fun q1 => g2.qubits.any (fun q2 => q1 == q2))

/-- Embedding of `CommutationPass::commute` (CommutationPass.hpp lines
135-179). -/
def commuteGates (g1 g2 : Gate) : Bool :=
  if !qubitsOverlap g1 g2 then true
  else if g1.type == g2.type && g1.qubits == g2.qubits then true
  else if isDiagonal g1.type && isDiagonal g2.type then true
  else if isZLike g1.type && g2.type == .CNOT &&
          g1.qubits.getD 0 0 == g2.qubits.getD 0 0 then true
  else if isZLike g2.type && g1.type == .CNOT &&
          g2.qubits.getD 0 0 == g1.qubits.getD 0 0 then true
  else if g1.type == .X && g2.type == .CNOT &&
          g1.qubits.getD 0 0 == g2.qubits.getD 1 0 then true
  else if g2.type == .X && g1.type == .CNOT &&
          g2.qubits.getD 0 0 == g1.qubits.getD 1 0 then true
  else false

/-- Embedding of `CommutationPass::couldCancel` (CommutationPass.hpp lines
253-273). -/
def couldCancel (g1 g2 : Gate) : Bool :=
  if g1.qubits != g2.qubits then false
  else if isHermitian g1.type && g1.type == g2.type then true
  else
    (g1.type == .S && g2.type == .Sdg) || (g1.type == .Sdg && g2.type == .S) ||
    (g1.type == .T && g2.type == .Tdg) || (g1.type == .Tdg && g2.type == .T)

/-- Embedding of `CommutationPass::couldMerge` (CommutationPass.hpp lines
278-289). -/
def couldMerge (g1 g2 : Gate) : Bool :=
  if g1.qubits != g2.qubits then false
  else g1.type == g2.type && isParameterizedType g1.type

/-- Embedding of `CommutationPass::shouldSwap` (CommutationPass.hpp lines
223-248). -/
def shouldSwap (d : DAG) (id1 id2 : Nat) : Bool :=
  match d.find? id1, d.find? id2 with
  | some n1, some n2 =>
      if !commuteGates n1.gate n2.gate then false
      else n1.predecessors.any
        (fun predId =>
          match d.find? predId with
          | none => false
          | some pn =>
              couldCancel pn.gate n2.gate || couldMerge pn.gate n2.gate)
  | _, _ => false

/-- Embedding of `CommutationPass::swapNodes` (CommutationPass.hpp lines
302-322): the implementation refuses to swap overlapping gates and reports
that non-overlapping gates need no swap, so it returns `false` on every
input and never modifies the DAG. -/
def swapNodes (d : DAG) (id1 id2 : Nat) : DAG × Bool :=
  match d.find? id1, d.find? id2 with
  | some n1, some n2 =>
      if qubitsOverlap n1.gate n2.gate then (d, false) else (d, false)
  | _, _ => (d, false)

/-- One pass of the `for (GateId id : order)` loop in
`CommutationPass::run` (CommutationPass.hpp lines 75-95): try every node
against each predecessor and stop at the first successful swap. -/
def commutationSweep (d : DAG) : DAG × Bool :=
  match d.topologicalOrder with
  | .error _ => (d, false)
  | .ok order =>
      order.foldl
        (fun st id =>
          if st.2 then st
          else if !st.1.hasNode id then st
          else
            match st.1.find? id with
            | none => st
            | some node =>
                node.predecessors.foldl
                  (fun st2 predId =>
                    if st2.2 then st2
                    else if !st2.1.hasNode predId then st2
                    else if shouldSwap st2.1 predId id then
                      swapNodes st2.1 predId id
                    else st2)
                  st)
        (d, false)

/-- Embedding of the `while (changed)` loop of `CommutationPass::run`
(CommutationPass.hpp lines 61-101) with explicit fuel. -/
def commutationRun : Nat → DAG → DAG
  | 0, d => d
  | fuel + 1, d =>
      let (d1, changed) := commutationSweep d
      if changed then commutationRun fuel d1 else d1

/-- Exact rational value of the IEEE-754 double `constants::PI`
(`3.14159265358979323846` rounds to `884279719003555 * 2^-48`). -/
def piD : ℚ := 884279719003555 / 2 ^ 48

/-- Truncation toward zero, the rounding used by C `fmod`. -/
def truncQ (x : ℚ) : ℤ :=
  if 0 ≤ x then ⌊x⌋ else ⌈x⌉

/-- Embedding of `std::fmod` on exact rationals: `x - y * trunc(x / y)`. -/
def fmodQ (x y : ℚ) : ℚ :=
  x - y * (truncQ (x / y) : ℚ)

/-- Embedding of `RotationMergePass::normalizeAngle` (RotationMergePass.hpp
lines 165-179): reduce with `fmod` by `2π`, then subtract `2π` when the
result exceeds `π` and add `2π` when it is strictly below `-π`. -/
def normalizeAngle (a : Angle) : Angle :=
  let twoPi := 2 * piD
  let a := fmodQ a twoPi
  if a > piD then a - twoPi
  else if a < -piD then a + twoPi
  else a

/-- Embedding of `Circuit::depth` (Circuit.hpp lines 163-185): scan gates in
order, each gate lands at one plus the maximum depth of its operands. -/
def Circuit.depth (c : Circuit) : Nat :=
  if c.gates.isEmpty then 0
  else
    let qd := c.gates.foldl
      (fun qd g =>
        let m := g.qubits.foldl (fun acc q => max acc (qd.getD q 0)) 0
        g.qubits.foldl (fun qd2 q => qd2.set q (m + 1)) qd)
      (List.replicate c.numQubits 0)
    qd.foldl max 0

/-- Embedding of class `Topology` (Topology.hpp): adjacency lists (in edge
insertion order) plus the normalized edge list. -/
structure Topology where
  numQubits : Nat
  adjacency : List (List Nat)
  edges : List (Nat × Nat)
deriving DecidableEq, Repr

/-- The `Topology(std::size_t)` constructor. -/
def Topology.emptyT (n : Nat) : Topology :=
  ⟨n, List.replicate n [], []⟩

/-- Embedding of `Topology::connected` (Topology.hpp lines 129-138):
out-of-range indices are not connected, a qubit is connected to itself, and
otherwise adjacency-list membership decides. -/
def Topology.connected (t : Topology) (q1 q2 : Nat) : Bool :=
  if q1 ≥ t.numQubits || q2 ≥ t.numQubits then false
  else if q1 == q2 then true
  else q2 ∈ t.adjacency.getD q1 []

/-- Embedding of `Topology::neighbors`. -/
def Topology.neighbors (t : Topology) (q : Nat) : List Nat :=
  t.adjacency.getD q []

/-- Embedding of `Topology::addEdge` (Topology.hpp lines 94-108): the C++
throws on out-of-range or self-loop arguments (modeled as a no-op; claims
only add valid edges), and skips duplicates via `connected`. -/
def Topology.addEdge (t : Topology) (q1 q2 : Nat) : Topology :=
  if q1 ≥ t.numQubits || q2 ≥ t.numQubits || q1 == q2 then t
  else if t.connected q1 q2 then t
  else
    { t with
      adjacency :=
        ((t.adjacency.modify (· ++ [q2]) q1).modify (· ++ [q1]) q2)
      edges := t.edges ++ [(min q1 q2, max q1 q2)] }

/-- Embedding of `Topology::linear` (Topology.hpp lines 272-281). -/
def Topology.linear (n : Nat) : Topology :=
  (List.range (n - 1)).foldl (fun t i => t.addEdge i (i + 1)) (Topology.emptyT n)

/-- Queue loop of the per-source BFS in `ensureDistanceComputed`
(Topology.hpp lines 473-490), with fuel (`numQubits` suffices: each vertex
is enqueued at most once). -/
def Topology.bfsLoop (t : Topology) :
    Nat → List Nat → List (Option Nat) → List (Option Nat)
  | 0, _, dist => dist
  | _ + 1, [], dist => dist
  | fuel + 1, cur :: rest, dist =>
      let dcur := (dist.getD cur none).getD 0
      let (dist1, newq) := (t.neighbors cur).foldl
        (fun st nb =>
          if (st.1.getD nb none).isNone then
            (st.1.set nb (some (dcur + 1)), st.2 ++ [nb])
          else st)
        (dist, [])
      t.bfsLoop fuel (rest ++ newq) dist1

/-- BFS distance array from `start` (one row of the lazily built
`distance_cache_`; `none` stands for `INFINITE`). -/
def Topology.bfsFrom (t : Topology) (start : Nat) : List (Option Nat) :=
  t.bfsLoop t.numQubits [start]
    ((List.replicate t.numQubits (none : Option Nat)).set start (some 0))

/-- Embedding of `Topology::distance` (Topology.hpp lines 162-170); the
bounds check that throws in C++ is a hypothesis at call sites. -/
def Topology.distance? (t : Topology) (q1 q2 : Nat) : Option Nat :=
  if q1 == q2 then some 0 else (t.bfsFrom q1).getD q2 none

/-- The value `static_cast<double>` gives a distance inside `scoreSwap`:
finite distances are exact, and the `INFINITE` sentinel (`SIZE_MAX`) rounds
to `2^64`. -/
def distScore (x : Option Nat) : ℚ :=
  match x with
  | some d => (d : ℚ)
  | none => (2 : ℚ) ^ 64

/-- The neighbor-relaxation step of the parent-pointer BFS in
`Topology::shortestPath` (Topology.hpp lines 202-207): record an unvisited
neighbor's parent and enqueue it. -/
def spRelaxStep (cur : Nat) (st : List (Option Nat) × List Nat) (nb : Nat) :
    List (Option Nat) × List Nat :=
  if (st.1.getD nb none).isNone then
    (st.1.set nb (some cur), st.2 ++ [nb])
  else st

/-- Queue loop of the parent-pointer BFS in `Topology::shortestPath`
(Topology.hpp lines 195-209), including the early exit at the target. -/
def Topology.spLoop (t : Topology) (target : Nat) :
    Nat → List Nat → List (Option Nat) → List (Option Nat)
  | 0, _, parent => parent
  | _ + 1, [], parent => parent
  | fuel + 1, cur :: rest, parent =>
      if cur == target then parent
      else
        let res := (t.neighbors cur).foldl (spRelaxStep cur) (parent, [])
        t.spLoop target fuel (rest ++ res.2) res.1

/-- Path reconstruction loop of `Topology::shortestPath` (Topology.hpp lines
218-223), with fuel: push vertices from `dst` back along the parent chain,
stopping in front of `src`. -/
def spBuild (parent : List (Option Nat)) (src : Nat) :
    Nat → Nat → List Nat → Option (List Nat)
  | 0, _, _ => none
  | fuel + 1, cur, acc =>
      if cur == src then some acc
      else
        match parent.getD cur none with
        | none => none
        | some p => spBuild parent src fuel p (acc ++ [cur])

/-- Embedding of `Topology::shortestPath` (Topology.hpp lines 180-226): the
pushed chain plus `src`, reversed.  `none` models the out-of-range and
`Disconnected` throws (and exhausted reconstruction fuel, which cannot occur
on the BFS parent forest). -/
def Topology.shortestPath (t : Topology) (src dst : Nat) : Option (List Nat) :=
  if src ≥ t.numQubits || dst ≥ t.numQubits then none
  else if src == dst then some [src]
  else
    let parent := t.spLoop dst t.numQubits [src]
      ((List.replicate t.numQubits (none : Option Nat)).set src (some src))
    if (parent.getD dst none).isNone then none
    else (spBuild parent src (t.numQubits + 1) dst []).map
      (fun raw => (raw ++ [src]).reverse)

/-- Embedding of `RoutingResult` (Router.hpp lines 38-66). -/
structure RoutingResult where
  routedCircuit : Circuit
  initialMapping : List Nat
  finalMapping : List Nat
  swapsInserted : Nat
  originalDepth : Nat
  finalDepth : Nat
deriving DecidableEq, Repr

/-- Embedding of `Router::identityMapping`. -/
def identityMapping (n : Nat) : List Nat := List.range n

/-- Embedding of `SabreRouter::computeReverseMapping` (SabreRouter.hpp lines
152-161); `none` models `INVALID_LOGICAL`. -/
def computeReverseMapping (mapping : List Nat) (numPhysical : Nat) :
    List (Option Nat) :=
  (List.range mapping.length).foldl
    (fun rev logical => rev.set (mapping.getD logical 0) (some logical))
    (List.replicate numPhysical (none : Option Nat))

/-- Embedding of `SabreRouter::insertSwap` (SabreRouter.hpp lines 386-405):
emit a SWAP on the two physical qubits, then exchange the mapping entries. -/
def insertSwap (p0 p1 : Nat) (mapping : List Nat)
    (reverseMapping : List (Option Nat)) (routed : Circuit) :
    List Nat × List (Option Nat) × Circuit :=
  let routed := routed.addGate (Gate.swapG p0 p1)
  let l0 := reverseMapping.getD p0 none
  let l1 := reverseMapping.getD p1 none
  let mapping := match l0 with | none => mapping | some l => mapping.set l p1
  let mapping := match l1 with | none => mapping | some l => mapping.set l p0
  let reverseMapping := (reverseMapping.set p0 l1).set p1 l0
  (mapping, reverseMapping, routed)

/-- Embedding of `SabreRouter::scoreSwap` (SabreRouter.hpp lines 319-381):
simulate the swap on a scratch mapping, sum the front-layer distances, then
add `decay * extended_weight` times the distances of the extended set (the
not-yet-executed direct successors of front nodes, capped at
`lookahead_depth` between front nodes). -/
def scoreSwap (p0 p1 : Nat) (d : DAG) (t : Topology) (mapping : List Nat)
    (front : List Nat) (executed : List Nat) (lookaheadDepth : Nat)
    (decayFactor extendedSetWeight : ℚ) : ℚ :=
  let logical0 := (List.range mapping.length).foldl
    (fun acc l => if mapping.getD l 0 == p0 then some l else acc) none
  let logical1 := (List.range mapping.length).foldl
    (fun acc l => if mapping.getD l 0 == p1 then some l else acc) none
  let newMapping := match logical0 with
    | none => mapping | some l => mapping.set l p1
  let newMapping := match logical1 with
    | none => newMapping | some l => newMapping.set l p0
  let frontScore := front.foldl
    (fun acc id =>
      match d.find? id with
      | none => acc
      | some n =>
          if n.gate.qubits.length == 2 then
            acc + distScore (t.distance?
              (newMapping.getD (n.gate.qubits.getD 0 0) 0)
              (newMapping.getD (n.gate.qubits.getD 1 0) 0))
          else acc)
    (0 : ℚ)
  let extended := front.foldl
    (fun ext id =>
      if ext.length ≥ lookaheadDepth then ext
      else
        match d.find? id with
        | none => ext
        | some n =>
            n.successors.foldl
              (fun ext2 succ =>
                if succ ∈ executed then ext2
                else if succ ∈ ext2 then ext2
                else ext2 ++ [succ])
              ext)
    ([] : List Nat)
  extended.foldl
    (fun acc id =>
      match d.find? id with
      | none => acc
      | some n =>
          if n.gate.qubits.length == 2 then
            acc + decayFactor * extendedSetWeight * distScore (t.distance?
              (newMapping.getD (n.gate.qubits.getD 0 0) 0)
              (newMapping.getD (n.gate.qubits.getD 1 0) 0))
          else acc)
    frontScore

/-- The per-edge comparison of `selectBestSwap` (SabreRouter.hpp lines
290-303): score the candidate swap and keep it when strictly better. -/
def swapCandStep (d : DAG) (t : Topology) (mapping : List Nat)
    (front : List Nat) (executed : List Nat) (lookaheadDepth : Nat)
    (decayFactor extendedSetWeight : ℚ) (p : Nat)
    (best2 : Option (ℚ × Nat × Nat)) (nb : Nat) : Option (ℚ × Nat × Nat) :=
  let sc := scoreSwap p nb d t mapping front executed
    lookaheadDepth decayFactor extendedSetWeight
  match best2 with
  | none => some (sc, p, nb)
  | some (bs, bp) => if sc < bs then some (sc, p, nb) else some (bs, bp)

/-- The per-active-qubit candidate scan of `selectBestSwap`: try every edge
out of `p`. -/
def swapBestStep (d : DAG) (t : Topology) (mapping : List Nat)
    (front : List Nat) (executed : List Nat) (lookaheadDepth : Nat)
    (decayFactor extendedSetWeight : ℚ)
    (best : Option (ℚ × Nat × Nat)) (p : Nat) : Option (ℚ × Nat × Nat) :=
  (t.neighbors p).foldl
    (swapCandStep d t mapping front executed lookaheadDepth decayFactor
      extendedSetWeight p)
    best

/-- Embedding of `SabreRouter::selectBestSwap` (SabreRouter.hpp lines
272-309): collect the physical qubits of the blocked two-qubit front gates
(an `unordered_set`, modeled in first-insertion order), score every edge out
of them, and keep the strictly best candidate in iteration order.  `none`
models the `INVALID_LOGICAL` pair. -/
def selectBestSwap (d : DAG) (t : Topology) (mapping : List Nat)
    (front : List Nat) (executed : List Nat) (lookaheadDepth : Nat)
    (decayFactor extendedSetWeight : ℚ) : Option (Nat × Nat) :=
  let active := front.foldl
    (fun act id =>
      match d.find? id with
      | none => act
      | some n =>
          if n.gate.qubits.length == 2 then
            let a0 := mapping.getD (n.gate.qubits.getD 0 0) 0
            let a1 := mapping.getD (n.gate.qubits.getD 1 0) 0
            let act := if a0 ∈ act then act else act ++ [a0]
            if a1 ∈ act then act else act ++ [a1]
          else act)
    ([] : List Nat)
  let best := active.foldl
    (swapBestStep d t mapping front executed lookaheadDepth decayFactor
      extendedSetWeight)
    (none : Option (ℚ × Nat × Nat))
  best.map (·.2)

/-- The mutable state of `SabreRouter::routeForward`. -/
structure RouteState where
  mapping : List Nat
  reverseMapping : List (Option Nat)
  routed : Circuit
  swaps : Nat
  executed : List Nat
  remainingDeps : List (Nat × Nat)
  front : List Nat
deriving DecidableEq, Repr

/-- One front-layer visit of `routeForward` (SabreRouter.hpp lines 196-224):
execute a single-qubit gate on its mapped physical, execute a two-qubit gate
whose mapped operands are `connected`, or record the gate as blocked. -/
def scanStep (d : DAG) (t : Topology) (mapping : List Nat)
    (acc : List Nat × List Nat × Circuit) (id : Nat) :
    List Nat × List Nat × Circuit :=
  match d.find? id with
  | none => acc
  | some n =>
      if n.gate.qubits.length == 1 then
        let physical := mapping.getD (n.gate.qubits.getD 0 0) 0
        (acc.1 ++ [id], acc.2.1,
         acc.2.2.addGate ⟨n.gate.type, [physical], n.gate.parameter, 0⟩)
      else
        let p0 := mapping.getD (n.gate.qubits.getD 0 0) 0
        let p1 := mapping.getD (n.gate.qubits.getD 1 0) 0
        if t.connected p0 p1 then
          (acc.1 ++ [id], acc.2.1,
           acc.2.2.addGate ⟨n.gate.type, [p0, p1], n.gate.parameter, 0⟩)
        else (acc.1, acc.2.1 ++ [id], acc.2.2)

/-- Embedding of the main loop of `SabreRouter::routeForward`
(SabreRouter.hpp lines 191-260) with explicit fuel; `none` means the fuel
ran out before the front layer emptied.  Each iteration first walks the
front layer executing every gate it can (single-qubit gates always, two-qubit
gates when their mapped operands are `connected`), then either refreshes the
front layer or inserts the best SWAP (falling back to the first hop of a
shortest path when no candidate was scored). -/
def routeForwardLoop (d : DAG) (t : Topology) (lookaheadDepth : Nat)
    (decayFactor extendedSetWeight : ℚ) :
    Nat → RouteState → Option RouteState
  | 0, st => if st.front.isEmpty then some st else none
  | fuel + 1, st =>
    if st.front.isEmpty then some st
    else
      let scan := st.front.foldl (scanStep d t st.mapping) ([], [], st.routed)
      let executedRound := scan.1
      let blocked := scan.2.1
      let routed := scan.2.2
      if !executedRound.isEmpty then
        let upd := executedRound.foldl
          (fun (acc : List (Nat × Nat) × List Nat) id =>
            match d.find? id with
            | none => acc
            | some n =>
                n.successors.foldl
                  (fun acc2 succ =>
                    match acc2.1.lookup succ with
                    | none => acc2
                    | some k =>
                        (assocSet acc2.1 succ (k - 1),
                         if k = 1 then acc2.2 ++ [succ] else acc2.2))
                  acc)
          (st.remainingDeps, blocked)
        routeForwardLoop d t lookaheadDepth decayFactor extendedSetWeight fuel
          { st with
            routed := routed
            executed := st.executed ++ executedRound
            remainingDeps := upd.1
            front := upd.2 }
      else
        match selectBestSwap d t st.mapping blocked st.executed
          lookaheadDepth decayFactor extendedSetWeight with
        | some (a, b) =>
            let sw := insertSwap a b st.mapping st.reverseMapping routed
            routeForwardLoop d t lookaheadDepth decayFactor extendedSetWeight fuel
              { st with
                mapping := sw.1
                reverseMapping := sw.2.1
                routed := sw.2.2
                swaps := st.swaps + 1
                front := blocked }
        | none =>
            match blocked.head? with
            | none =>
                routeForwardLoop d t lookaheadDepth decayFactor extendedSetWeight
                  fuel { st with routed := routed, front := blocked }
            | some id0 =>
                match d.find? id0 with
                | none => none
                | some n =>
                    let p0 := st.mapping.getD (n.gate.qubits.getD 0 0) 0
                    let p1 := st.mapping.getD (n.gate.qubits.getD 1 0) 0
                    match t.shortestPath p0 p1 with
                    | none => none
                    | some path =>
                        if path.length ≥ 2 then
                          let sw := insertSwap (path.getD 0 0) (path.getD 1 0)
                            st.mapping st.reverseMapping routed
                          routeForwardLoop d t lookaheadDepth decayFactor
                            extendedSetWeight fuel
                            { st with
                              mapping := sw.1
                              reverseMapping := sw.2.1
                              routed := sw.2.2
                              swaps := st.swaps + 1
                              front := blocked }
                        else
                          routeForwardLoop d t lookaheadDepth decayFactor
                            extendedSetWeight fuel
                            { st with routed := routed, front := blocked }

/-- Embedding of `SabreRouter::route` (SabreRouter.hpp lines 83-119) with
the default configuration (`lookahead_depth = 20`, `decay_factor = 0.5`,
`extended_set_weight = 0.5`).  `Except.error` models the `IncompatibleSize`
throw; `Except.ok none` means the routing loop did not finish within `fuel`
rounds. -/
def sabreRoute (fuel : Nat) (c : Circuit) (t : Topology) :
    Except String (Option RoutingResult) :=
  if c.numQubits > t.numQubits then .error "IncompatibleSize"
  else if c.gates.isEmpty then
    .ok (some
      { routedCircuit := { numQubits := c.numQubits }
        initialMapping := identityMapping c.numQubits
        finalMapping := identityMapping c.numQubits
        swapsInserted := 0
        originalDepth := 0
        finalDepth := 0 })
  else
    let dag := DAG.fromCircuit c
    let mapping := identityMapping c.numQubits
    let reverseMapping := computeReverseMapping mapping t.numQubits
    let st0 : RouteState :=
      { mapping := mapping
        reverseMapping := reverseMapping
        routed := { numQubits := t.numQubits }
        swaps := 0
        executed := []
        remainingDeps := dag.nodes.map (fun p => (p.1, p.2.predecessors.length))
        front := dag.sources }
    match routeForwardLoop dag t 20 (1/2 : ℚ) (1/2 : ℚ) fuel st0 with
    | none => .ok none
    | some st =>
        .ok (some
          { routedCircuit := st.routed
            initialMapping := identityMapping c.numQubits
            finalMapping := st.mapping
            swapsInserted := st.swaps
            originalDepth := c.depth
            finalDepth := st.routed.depth })

section Lemmas

/-- A fold whose step fixes the accumulator never moves. -/
theorem foldl_fixed {α β : Type} (f : β → α → β) (b : β)
    (h : ∀ x, f b x = b) : ∀ l : List α, l.foldl f b = b := by
  intro l
  induction l with
  | nil => rfl
  | cons x xs ih => simp [List.foldl_cons, h x, ih]

/-- The `swapNodes` stub returns `false` without touching the DAG on every
input. -/
theorem swapNodes_eq (d : DAG) (a b : Nat) : swapNodes d a b = (d, false) := by
  unfold swapNodes
  rcases d.find? a with _ | n1 <;> rcases d.find? b with _ | n2 <;> simp

/-- One commutation sweep never changes the DAG and never reports a swap. -/
theorem commutationSweep_eq (d : DAG) : commutationSweep d = (d, false) := by
  unfold commutationSweep
  rcases d.topologicalOrder with e | order
  · rfl
  · simp only
    apply foldl_fixed
    intro id
    simp only
    rcases h : d.find? id with _ | node
    · simp [h]
    · simp only [h]
      by_cases hn : (DAG.hasNode d id : Bool)
      · simp only [hn]
        simp only [Bool.not_true, if_false, Bool.false_eq_true]
        apply foldl_fixed
        intro p
        simp only
        by_cases hp : (DAG.hasNode d p : Bool)
        · simp [hp, swapNodes_eq]
        · simp [hp]
      · simp [hn]

/-- Any number of iterations of the commutation loop is the identity. -/
theorem commutationRun_eq (fuel : Nat) (d : DAG) : commutationRun fuel d = d := by
  cases fuel with
  | zero => rfl
  | succ n => simp [commutationRun, commutationSweep_eq]

end Lemmas

section Claims

/-- Claim C10: for every DAG, `CommutationPass::run` leaves the DAG
completely unchanged (`swapNodes` always returns `false`, so no sweep ever
modifies a node or edge and the `changed` flag is never set): the whole pass
is the identity on the DAG state, for any iteration fuel. -/
theorem commutationPass_is_noop (fuel : Nat) (d : DAG) :
    commutationRun fuel d = d :=
  commutationRun_eq fuel d

end Claims

/-- The spec's invariant on the per-qubit cursor, phrased on one qubit: when
`last[q]` is unset no node touches `q`; when it is node `u`, `u` exists,
touches `q`, and no direct successor of `u` touches `q`. -/
def lastCursorOk (d : DAG) (q : Nat) : Bool :=
  match d.lastGateOnQubit.getD q none with
  | none => d.nodes.all (fun p => q ∉ p.2.gate.qubits)
  | some u =>
      match d.find? u with
      | none => false
      | some n =>
          decide (q ∈ n.gate.qubits) &&
          n.successors.all (fun s =>
            match d.find? s with
            | none => true
            | some sn => q ∉ sn.gate.qubits)

/-- The reachable DAG of claim C2's failing trace: `addGate CX(0,1);
addGate X(1); addGate CX(0,1)` from an empty two-qubit DAG. -/
def dagC2 : DAG :=
  (((DAG.empty 2).addGate (Gate.cnot 0 1)).addGate (Gate.x 1)).addGate
    (Gate.cnot 0 1)

/-- The ready-set of a partially emitted DAG: unemitted nodes all of whose
predecessors are emitted. -/
def readyAt (d : DAG) (emitted : List Nat) : List Nat :=
  ((d.nodes.filter
    (fun p => decide (p.1 ∉ emitted) && p.2.predecessors.all (· ∈ emitted))).map
    (·.1))

/-- The DAG of claim C8's counterexample: `CX(0,1); H(0); H(0); H(1)`. -/
def dagC8 : DAG :=
  DAG.fromCircuit (Circuit.ofGates 2 [Gate.cnot 0 1, Gate.h 0, Gate.h 0, Gate.h 1])

/-- The DAG of claim C4's scenario: `Z q0; CX q0,q1; Z q0`. -/
def dagC4 : DAG :=
  DAG.fromCircuit (Circuit.ofGates 2 [Gate.z 0, Gate.cnot 0 1, Gate.z 0])

/-- The DAG of claim C5's counterexample: `H q0; X q0; X q0; H q0`. -/
def dagC5 : DAG :=
  DAG.fromCircuit (Circuit.ofGates 1 [Gate.h 0, Gate.x 0, Gate.x 0, Gate.h 0])

/-- Concrete circuit for the roundtrip witness: `H 0; CX 0 1; X 1`. -/
def circC6 : Circuit := Circuit.ofGates 2 [Gate.h 0, Gate.cnot 0 1, Gate.x 1]

section Claims2

/-- Claim C2 (code bug): after the reachable mutation sequence
`addGate CX(0,1); addGate X(1); addGate CX(0,1); removeNode 2`, the cursor
`last[1]` is node `0` (the first CX), yet node `1` (`X q1`) is still in the
DAG, touches qubit 1, and has no successors — so `last[1]` is not the unique
sink-on-qubit-1 node the invariant demands.  The repair loop in
`DAG::removeNode` walks the removed node's predecessor list and takes the
first predecessor touching the qubit, which here is the CX rather than the
later X. -/
theorem dag_removeNode_breaks_last_cursor :
    (dagC2.removeNode 2).lastGateOnQubit.getD 1 none = some 0 ∧
    (dagC2.removeNode 2).find? 1 = some
      { gate := { type := .X, qubits := [1], parameter := none, id := 1 }
        predecessors := [0]
        successors := [] } ∧
    lastCursorOk (dagC2.removeNode 2) 1 = false := by
  constructor
  · rfl
  · constructor
    · rfl
    · rfl

/-- Claim C4 (code bug): on the input `Z q0; CX q0,q1; Z q0`,
`CancellationPass` alone removes nothing (as the claim says), but
`CommutationPass` followed by `CancellationPass` also removes nothing — the
DAG still holds all three gates `Z, CX, Z` — because `swapNodes` never
reorders anything.  The claim's expected result of a single CX never
happens. -/
theorem commute_then_cancel_leaves_z_cx_z (fuel : Nat) :
    (cancellationRun dagC4).2 = 0 ∧
    (cancellationRun (commutationRun fuel dagC4)).2 = 0 ∧
    (cancellationRun (commutationRun fuel dagC4)).1.numNodes = 3 ∧
    ((cancellationRun (commutationRun fuel dagC4)).1.nodes.map
      (fun p => p.2.gate.type)) = [.Z, .CNOT, .Z] := by
  rw [commutationRun_eq]
  refine ⟨by rfl, by rfl, by rfl, by rfl⟩

/-- Witness for the C4 evaluation at a concrete fuel value. -/
theorem commute_then_cancel_leaves_z_cx_z_witness :
    (cancellationRun dagC4).2 = 0 ∧
    (cancellationRun (commutationRun 5 dagC4)).1.numNodes = 3 :=
  ⟨(commute_then_cancel_leaves_z_cx_z 5).1,
   (commute_then_cancel_leaves_z_cx_z 5).2.2.1⟩

/-- Claim C5 counterexample: on the DAG of `H q0; X q0; X q0; H q0` the
first `CancellationPass` run removes the X pair, the edge contraction makes
the two H gates adjacent, and the second run removes them: it removes two
gates, not zero. -/
theorem cancellation_second_run_not_zero :
    (cancellationRun dagC5).2 = 2 ∧
    (cancellationRun (cancellationRun dagC5).1).2 = 2 ∧ (2 : Nat) ≠ 0 := by
  refine ⟨by rfl, by rfl, by decide⟩

/-- Claim C5 amended: a `CancellationPass` run that removes no gates leaves
the DAG unchanged, so a second run removes zero gates whenever the first
did; in general a second run can remove more (see the counterexample). -/
theorem cancellation_fixpoint_second_run_zero (d : DAG)
    (h : (cancellationRun d).2 = 0) :
    (cancellationRun (cancellationRun d).1).2 = 0 := by
  have hd : (cancellationRun d).1 = d := by
    unfold cancellationRun at h ⊢
    rcases htopo : d.topologicalOrder with e | order
    · simp [htopo]
    · simp only [htopo] at h ⊢
      have hm : cancellationMarks d order = [] := by
        exact List.length_eq_zero.mp h
      rw [hm]
      apply foldl_fixed
      intro id
      simp
  rw [hd]
  exact h

/-- Witness for the amended C5 claim on the `Z; CX; Z` DAG, where the first
run removes nothing. -/
theorem cancellation_fixpoint_second_run_zero_witness :
    (cancellationRun dagC4).2 = 0 ∧
    (cancellationRun (cancellationRun dagC4).1).2 = 0 :=
  ⟨by rfl, cancellation_fixpoint_second_run_zero dagC4 (by rfl)⟩

/-- Claim C9 counterexample: the `Gate` constructor itself never checks
operand distinctness — `Gate(GateType::CNOT, {0, 0})` passes `validate()`
and constructs successfully, so not every construction violating operand
distinctness fails. -/
theorem gate_constructor_accepts_equal_operands :
    Gate.make .CNOT [0, 0] none 0 =
      .ok { type := .CNOT, qubits := [0, 0], parameter := none, id := 0 } := by
  rfl

/-- Claim C9 amended: the distinctness check lives only in the `cnot`, `cz`
and `swap` factories, which always fail on equal operands; the constructor
(`validate()`) accepts any operand list of the right arity and only demands
a parameter for rotation kinds (a spurious parameter on a non-parameterized
kind is also accepted). -/
theorem gate_factories_reject_equal_operands :
    (∀ a : Nat, Gate.cnotE a a = .error "InvalidGate") ∧
    (∀ a : Nat, Gate.czE a a = .error "InvalidGate") ∧
    (∀ a : Nat, Gate.swapE a a = .error "InvalidGate") ∧
    (∀ (t : GateType) (qs : List Nat) (p : Option Angle) (id : Nat),
      (Gate.make t qs p id).isOk = true ↔
        (qs.length = numQubitsFor t ∧
          (isParameterizedType t = true → p.isSome = true))) := by
  refine ⟨?_, ?_, ?_, ?_⟩
  · intro a; simp [Gate.cnotE]
  · intro a; simp [Gate.czE]
  · intro a; simp [Gate.swapE]
  · intro t qs p id
    unfold Gate.make Gate.validateOk
    by_cases h1 : qs.length = numQubitsFor t
    · by_cases h2 : isParameterizedType t
      · rcases p with _ | a <;> simp [h1, h2, Except.isOk, Except.toBool]
      · simp [h1, h2, Except.isOk, Except.toBool]
    · simp [h1, Except.isOk, Except.toBool]

/-- Claim C8 counterexample: on the DAG of `CX(0,1); H(0); H(0); H(1)` the
FIFO queue of `DAG::topologicalOrder` emits `[0, 1, 3, 2]`; when node 3 is
emitted, node 2 is also ready (all predecessors emitted) and has the smaller
gate-id, so the order does not emit the smallest ready gate-id first. -/
theorem topologicalOrder_not_smallest_id_first :
    dagC8.topologicalOrderRaw = [0, 1, 3, 2] ∧
    2 ∈ readyAt dagC8 (dagC8.topologicalOrderRaw.take 2) ∧
    dagC8.topologicalOrderRaw.getD 2 0 = 3 ∧ ¬ ((3 : Nat) ≤ 2) := by
  refine ⟨by rfl, by decide, by rfl, by decide⟩

end Claims2

section AngleLemmas

/-- The embedded double constant `π` is positive. -/
theorem piD_pos : 0 < piD := by norm_num [piD]

/-- The rational `fmod` lies strictly between `-y` and `y` for positive
`y`. -/
theorem fmodQ_range (x y : ℚ) (hy : 0 < y) : -y < fmodQ x y ∧ fmodQ x y < y := by
  have hy0 : y ≠ 0 := ne_of_gt hy
  have hq : y * (x / y) = x := by field_simp
  unfold fmodQ truncQ
  by_cases h : 0 ≤ x / y
  · simp only [h, if_true]
    have h1 : (⌊x / y⌋ : ℚ) ≤ x / y := Int.floor_le _
    have h2 : x / y - 1 < (⌊x / y⌋ : ℚ) := Int.sub_one_lt_floor _
    constructor
    · nlinarith
    · nlinarith
  · simp only [h, if_false]
    have h1 : (x / y : ℚ) ≤ (⌈x / y⌉ : ℚ) := Int.le_ceil _
    have h2 : (⌈x / y⌉ : ℚ) < x / y + 1 := Int.ceil_lt_add_one _
    constructor
    · nlinarith
    · nlinarith

/-- Evaluation of the embedded `fmod` at exactly `-π` modulo `2π`. -/
theorem fmodQ_neg_pi : fmodQ (-piD) (2 * piD) = -piD := by
  have hne : piD ≠ 0 := ne_of_gt piD_pos
  have hdiv : (-piD) / (2 * piD) = -(1 / 2 : ℚ) := by
    field_simp
    ring
  have htr : truncQ (-(1 / 2 : ℚ)) = 0 := by
    unfold truncQ
    rw [if_neg (by norm_num)]
    norm_num
  unfold fmodQ
  rw [hdiv, htr]
  push_cast
  ring

/-- Evaluation of `normalizeAngle` at exactly `-π`: the strict `a < -π`
comparison is false, so the value is returned unchanged. -/
theorem normalizeAngle_neg_pi : normalizeAngle (-piD) = -piD := by
  unfold normalizeAngle
  simp only [fmodQ_neg_pi]
  rw [if_neg (by linarith [piD_pos]), if_neg (by simp)]

end AngleLemmas

section Claims3

/-- Claim C7 counterexample: merging `Rz(-π/2)` with `Rz(-π/2)` calls
`normalizeAngle` on exactly `-π` (these doubles are exact), and the code's
strict `angle < -PI` comparison leaves `-π` unchanged instead of mapping it
to `+π`; the result lies outside the claimed half-open interval
`(-π, π]`. -/
theorem normalizeAngle_fixes_neg_pi :
    normalizeAngle (-(piD / 2) + -(piD / 2)) = -piD ∧
    ¬ (-piD < normalizeAngle (-(piD / 2) + -(piD / 2))) ∧
    -piD ≠ piD := by
  have harg : -(piD / 2) + -(piD / 2) = -piD := by ring
  have h : normalizeAngle (-(piD / 2) + -(piD / 2)) = -piD := by
    rw [harg, normalizeAngle_neg_pi]
  refine ⟨h, ?_, by norm_num [piD]⟩
  rw [h]
  simp

/-- Claim C7 amended: `normalizeAngle` reduces by `fmod 2π` and then shifts
with the strict comparisons `a > π` / `a < -π`, so every output lies in the
closed interval `[-π, π]`, and an intermediate value of exactly `-π` is left
at `-π` (not sent to `+π`). -/
theorem normalizeAngle_mem_closed_interval (a : Angle) :
    -piD ≤ normalizeAngle a ∧ normalizeAngle a ≤ piD ∧
    normalizeAngle (-piD) = -piD := by
  have hpos : (0 : ℚ) < 2 * piD := by linarith [piD_pos]
  have hr := fmodQ_range a (2 * piD) hpos
  have hfix : normalizeAngle (-piD) = -piD := normalizeAngle_neg_pi
  have hrange : -piD ≤ normalizeAngle a ∧ normalizeAngle a ≤ piD := by
    unfold normalizeAngle
    simp only
    split_ifs with h1 h2
    · exact ⟨by linarith, by linarith⟩
    · exact ⟨by linarith, by linarith⟩
    · push_neg at h1 h2
      exact ⟨by linarith, by linarith⟩
  exact ⟨hrange.1, hrange.2, hfix⟩

end Claims3

section KahnTheory

/-- The id list of a DAG's node container. -/
def keys (d : DAG) : List Nat := d.nodes.map (·.1)

/-- Predecessor list of a node (empty for absent ids). -/
def predsOf (d : DAG) (x : Nat) : List Nat :=
  ((d.find? x).map DAGNode.predecessors).getD []

/-- Successor list of a node (empty for absent ids). -/
def succsOf (d : DAG) (x : Nat) : List Nat :=
  ((d.find? x).map DAGNode.successors).getD []

/-- Structural invariant of every DAG reachable from `fromCircuit` on a
well-formed circuit: distinct ids, edges pointing from smaller to larger id,
edge targets present, and predecessor/successor lists recording the same
multigraph (equal edge multiplicities on both endpoints). -/
def DAG.Inv (d : DAG) : Prop :=
  (keys d).Nodup ∧
  (∀ x ∈ keys d, ∀ p ∈ predsOf d x, p < x ∧ p ∈ keys d) ∧
  (∀ x ∈ keys d, ∀ s ∈ succsOf d x, s ∈ keys d) ∧
  (∀ x ∈ keys d, ∀ p ∈ keys d,
    (predsOf d x).count p = (succsOf d p).count x)

instance (d : DAG) : Decidable d.Inv := by
  unfold DAG.Inv; infer_instance

/-- Count of the entries of `l` outside `emitted`. -/
def countNotIn (emitted l : List Nat) : Nat :=
  (l.filter (fun p => decide (p ∉ emitted))).length

/-- With nothing emitted, `countNotIn` is the length. -/
theorem countNotIn_nil (l : List Nat) : countNotIn [] l = l.length := by
  unfold countNotIn
  induction l with
  | nil => rfl
  | cons a as ih => simp [ih]

/-- Emitting one fresh element removes exactly its occurrences from the
count. -/
theorem countNotIn_cons (c : Nat) (emitted l : List Nat) (hc : c ∉ emitted) :
    countNotIn (c :: emitted) l = countNotIn emitted l - l.count c ∧
    l.count c ≤ countNotIn emitted l := by
  induction l with
  | nil => simp [countNotIn]
  | cons a as ih =>
      rcases ih with ⟨ih1, ih2⟩
      have hcount : (a :: as).count c = as.count c + (if a = c then 1 else 0) := by
        by_cases hac : a = c
        · subst hac; simp [List.count_cons]
        · simp [List.count_cons, hac]
      by_cases hac : a = c
      · subst hac
        have e1 : countNotIn (a :: emitted) (a :: as)
            = countNotIn (a :: emitted) as := by
          unfold countNotIn
          rw [List.filter_cons]
          simp
        have e2 : countNotIn emitted (a :: as)
            = countNotIn emitted as + 1 := by
          unfold countNotIn
          rw [List.filter_cons]
          simp [hc]
        rw [e1, e2, hcount, if_pos rfl]
        exact ⟨by omega, by omega⟩
      · by_cases hmem : a ∈ emitted
        · have e1 : countNotIn (c :: emitted) (a :: as)
              = countNotIn (c :: emitted) as := by
            unfold countNotIn
            rw [List.filter_cons]
            simp [List.mem_cons, hmem]
          have e2 : countNotIn emitted (a :: as)
              = countNotIn emitted as := by
            unfold countNotIn
            rw [List.filter_cons]
            simp [hmem]
          rw [e1, e2, hcount, if_neg hac]
          exact ⟨by omega, by omega⟩
        · have e1 : countNotIn (c :: emitted) (a :: as)
              = countNotIn (c :: emitted) as + 1 := by
            unfold countNotIn
            rw [List.filter_cons]
            have : a ∉ c :: emitted := by
              intro hmm
              rcases List.mem_cons.mp hmm with h | h
              · exact hac h
              · exact hmem h
            simp [this]
          have e2 : countNotIn emitted (a :: as)
              = countNotIn emitted as + 1 := by
            unfold countNotIn
            rw [List.filter_cons]
            simp [hmem]
          rw [e1, e2, hcount, if_neg hac]
          exact ⟨by omega, by omega⟩

/-- Monotonicity of `countNotIn` in the emitted set. -/
theorem countNotIn_cons_le (c : Nat) (emitted l : List Nat) :
    countNotIn (c :: emitted) l ≤ countNotIn emitted l := by
  unfold countNotIn
  induction l with
  | nil => simp
  | cons a as ih =>
      simp only [List.filter_cons]
      by_cases h1 : a ∈ c :: emitted
      · have h1b : (a ∉ c :: emitted) = False := by simp [h1]
        by_cases h2 : a ∈ emitted
        · have : (a ∉ emitted) = False := by simp [h2]
          simpa [h1b, this] using ih
        · have : (a ∉ emitted) = True := by simp [h2]
          simp only [h1b, this, decide_False, decide_True, Bool.false_eq_true,
            if_false, if_true, List.length_cons]
          omega
      · have h1b : (a ∉ c :: emitted) = True := by simp [h1]
        have h2 : a ∉ emitted := fun hm => h1 (by simp [hm])
        have h2b : (a ∉ emitted) = True := by simp [h2]
        simp only [h1b, h2b, decide_True, if_true, List.length_cons]
        omega

/-- A zero `countNotIn` means every entry is emitted. -/
theorem countNotIn_eq_zero (emitted l : List Nat) :
    countNotIn emitted l = 0 ↔ ∀ p ∈ l, p ∈ emitted := by
  unfold countNotIn
  rw [List.length_eq_zero, List.filter_eq_nil_iff]
  constructor
  · intro h p hp
    by_contra hnot
    exact absurd (h p hp) (by simp [hnot])
  · intro h p hp
    simp [h p hp]

/-- A nonzero `countNotIn` yields an unemitted entry. -/
theorem countNotIn_ne_zero (emitted l : List Nat)
    (h : countNotIn emitted l ≠ 0) : ∃ p ∈ l, p ∉ emitted := by
  by_contra hnot
  push_neg at hnot
  exact h ((countNotIn_eq_zero emitted l).mpr hnot)

/-- Occurrences of an unemitted value are all counted by `countNotIn`. -/
theorem count_le_countNotIn (c : Nat) (emitted l : List Nat)
    (hc : c ∉ emitted) : l.count c ≤ countNotIn emitted l :=
  (countNotIn_cons c emitted l hc).2

/-- A lookup succeeds exactly on the stored keys. -/
theorem lookup_isSome_iff {α : Type} (l : List (Nat × α)) (x : Nat) :
    (l.lookup x).isSome = true ↔ x ∈ l.map (·.1) := by
  induction l with
  | nil => simp
  | cons p ps ih =>
      by_cases hx : x = p.1
      · have hb : (x == p.1) = true := by simpa using hx
        simp [List.lookup, hb, hx]
      · have hb : (x == p.1) = false := by simpa using hx
        simp [List.lookup, hb, ih, hx]

/-- A successful lookup returns a stored pair. -/
theorem lookup_mem {α : Type} (l : List (Nat × α)) (x : Nat) (v : α)
    (h : l.lookup x = some v) : (x, v) ∈ l := by
  induction l with
  | nil => simp at h
  | cons p ps ih =>
      by_cases hx : x = p.1
      · have hb : (x == p.1) = true := by simpa using hx
        simp only [List.lookup, hb] at h
        cases h
        subst hx
        simp
      · have hb : (x == p.1) = false := by simpa using hx
        simp only [List.lookup, hb] at h
        exact List.mem_cons.mpr (Or.inr (ih h))

/-- With distinct keys, a stored pair is returned by lookup. -/
theorem mem_lookup {α : Type} (l : List (Nat × α)) (x : Nat) (v : α)
    (hnd : (l.map (·.1)).Nodup) (h : (x, v) ∈ l) : l.lookup x = some v := by
  induction l with
  | nil => simp at h
  | cons p ps ih =>
      simp only [List.map_cons, List.nodup_cons] at hnd
      rcases List.mem_cons.mp h with h1 | h1
      · have hp : p = (x, v) := h1.symm
        subst hp
        simp [List.lookup]
      · have hx : x ≠ p.1 := by
          intro hxx
          apply hnd.1
          rw [← hxx]
          exact List.mem_map.mpr ⟨(x, v), h1, rfl⟩
        have hb : (x == p.1) = false := by simpa using hx
        simp only [List.lookup, hb]
        exact ih hnd.2 h1

/-- `assocSet` keeps the key list. -/
theorem assocSet_keys (l : List (Nat × Nat)) (k v : Nat) :
    (assocSet l k v).map (·.1) = l.map (·.1) := by
  unfold assocSet
  induction l with
  | nil => rfl
  | cons p ps ih =>
      by_cases hp : p.1 = k
      · simp [hp, ih]
      · simp [hp, ih]

/-- Lookup after `assocSet` at the written key. -/
theorem assocSet_lookup_self (l : List (Nat × Nat)) (k v : Nat) :
    (assocSet l k v).lookup k =
      if (l.lookup k).isSome then some v else none := by
  induction l with
  | nil => simp [assocSet]
  | cons p ps ih =>
      unfold assocSet at ih ⊢
      simp only [List.map_cons]
      by_cases hp : p.1 = k
      · rw [if_pos hp]
        have hb : (k == p.1) = true := by simpa using hp.symm
        simp [List.lookup, hb]
      · rw [if_neg hp]
        have hb : (k == p.1) = false := by
          simpa using fun hkk : k = p.1 => hp hkk.symm
        simp only [List.lookup, hb]
        exact ih

/-- Lookup after `assocSet` at another key. -/
theorem assocSet_lookup_ne (l : List (Nat × Nat)) (k v x : Nat)
    (hx : x ≠ k) : (assocSet l k v).lookup x = l.lookup x := by
  induction l with
  | nil => simp [assocSet]
  | cons p ps ih =>
      unfold assocSet at ih ⊢
      simp only [List.map_cons]
      by_cases hp : p.1 = k
      · rw [if_pos hp]
        have hb : (x == p.1) = false := by
          simpa using fun hxx : x = p.1 => hx (hxx.trans hp)
        simp only [List.lookup, hb]
        exact ih
      · rw [if_neg hp]
        by_cases hxp : x = p.1
        · have hb : (x == p.1) = true := by simpa using hxp
          simp [List.lookup, hb]
        · have hb : (x == p.1) = false := by simpa using hxp
          simp only [List.lookup, hb]
          exact ih

/-- Lookup through a key-preserving map of the values. -/
theorem lookup_map_snd {α β : Type} (l : List (Nat × α)) (f : α → β) (x : Nat) :
    (l.map (fun p => (p.1, f p.2))).lookup x = (l.lookup x).map f := by
  induction l with
  | nil => simp
  | cons p ps ih =>
      simp only [List.map_cons]
      by_cases hx : x = p.1
      · have hb : (x == p.1) = true := by simpa using hx
        simp [List.lookup, hb]
      · have hb : (x == p.1) = false := by simpa using hx
        simp only [List.lookup, hb]
        exact ih

/-- Full characterization of the decrement-and-collect fold of Kahn's
algorithm: keys are preserved, every tracked count drops by the occurrence
count in the processed successor list, and a node is collected exactly when
its tracked count was positive and is consumed completely (given that no
tracked count under-runs, which the accuracy invariant of the main loop
provides). -/
theorem kahnDec_fold_spec (succs : List Nat) :
    ∀ (indeg : List (Nat × Nat)) (acc : List Nat),
    (∀ x k, indeg.lookup x = some k → succs.count x ≤ k) →
    ((succs.foldl kahnDecStep (indeg, acc)).1.map (·.1) = indeg.map (·.1)) ∧
    (∀ x, (succs.foldl kahnDecStep (indeg, acc)).1.lookup x
        = (indeg.lookup x).map (fun k => k - succs.count x)) ∧
    (∀ x, x ∈ (succs.foldl kahnDecStep (indeg, acc)).2 ↔ x ∈ acc ∨
      (∃ k, indeg.lookup x = some k ∧ 0 < k ∧ k = succs.count x)) ∧
    (acc.Nodup → (∀ x ∈ acc, ∀ k, indeg.lookup x = some k → k = 0) →
      (succs.foldl kahnDecStep (indeg, acc)).2.Nodup) := by
  induction succs with
  | nil =>
      intro indeg acc _
      refine ⟨rfl, ?_, ?_, ?_⟩
      · intro x
        simp only [List.foldl_nil, List.count_nil]
        cases indeg.lookup x <;> simp
      · intro x
        simp only [List.foldl_nil, List.count_nil]
        constructor
        · intro hx
          exact Or.inl hx
        · rintro (hx | ⟨k, _, hk0, hkc⟩)
          · exact hx
          · omega
      · intro h1 _
        simpa using h1
  | cons s rest ih =>
      intro indeg acc hge
      have hcnt : ∀ x, (s :: rest).count x
          = rest.count x + (if x = s then 1 else 0) := by
        intro x
        by_cases hx : x = s
        · subst hx; simp [List.count_cons]
        · simp [List.count_cons, hx, Ne.symm]
      simp only [List.foldl_cons]
      rcases hs : indeg.lookup s with _ | k
      · have hstep : kahnDecStep (indeg, acc) s = (indeg, acc) := by
          unfold kahnDecStep
          simp [hs]
        rw [hstep]
        have hge2 : ∀ x k, indeg.lookup x = some k → rest.count x ≤ k := by
          intro x k hx
          have := hge x k hx
          have hxs : x ≠ s := by
            intro hxx
            rw [hxx] at hx
            rw [hs] at hx
            cases hx
          rw [hcnt x, if_neg hxs] at this
          omega
        rcases ih indeg acc hge2 with ⟨ihk, ihl, ihm, ihn⟩
        refine ⟨ihk, ?_, ?_, ihn⟩
        · intro x
          by_cases hxs : x = s
          · subst hxs
            rw [ihl x, hs]
            simp [hs]
          · rw [ihl x, hcnt x, if_neg hxs]
            simp
        · intro x
          rw [ihm x]
          by_cases hxs : x = s
          · subst hxs
            rw [hs]
            simp
          · rw [hcnt x, if_neg hxs]
            simp
      · have hk1 : rest.count s + 1 ≤ k := by
          have := hge s k hs
          rw [hcnt s, if_pos rfl] at this
          omega
        have hstep : kahnDecStep (indeg, acc) s
            = (assocSet indeg s (k - 1), if k = 1 then acc ++ [s] else acc) := by
          unfold kahnDecStep
          simp [hs]
        rw [hstep]
        have hlook : ∀ x, (assocSet indeg s (k - 1)).lookup x
            = if x = s then some (k - 1) else indeg.lookup x := by
          intro x
          by_cases hxs : x = s
          · subst hxs
            rw [assocSet_lookup_self, if_pos (by simp [hs])]
            simp
          · rw [assocSet_lookup_ne indeg s (k - 1) x hxs, if_neg hxs]
        have hge2 : ∀ x k2, (assocSet indeg s (k - 1)).lookup x = some k2 →
            rest.count x ≤ k2 := by
          intro x k2 hx
          rw [hlook x] at hx
          by_cases hxs : x = s
          · rw [if_pos hxs] at hx
            cases hx
            subst hxs
            omega
          · rw [if_neg hxs] at hx
            have := hge x k2 hx
            rw [hcnt x, if_neg hxs] at this
            omega
        rcases ih (assocSet indeg s (k - 1)) (if k = 1 then acc ++ [s] else acc)
          hge2 with ⟨ihk, ihl, ihm, ihn⟩
        refine ⟨?_, ?_, ?_, ?_⟩
        · rw [ihk, assocSet_keys]
        · intro x
          rw [ihl x, hlook x]
          by_cases hxs : x = s
          · subst hxs
            rw [if_pos rfl, hs, hcnt x, if_pos rfl]
            have : k - 1 - rest.count x = k - (rest.count x + 1) := by omega
            simp [this]
          · rw [if_neg hxs, hcnt x, if_neg hxs]
            simp
        · intro x
          rw [ihm x, hlook x]
          by_cases hxs : x = s
          · subst hxs
            rw [if_pos rfl, hs, hcnt x, if_pos rfl]
            by_cases hk : k = 1
            · subst hk
              have hc0 : rest.count x = 0 := by omega
              rw [if_pos rfl]
              simp [hc0]
            · rw [if_neg hk]
              constructor
              · rintro (hacc | ⟨k2, hk2, hk2p, hk2c⟩)
                · exact Or.inl hacc
                · cases hk2
                  right
                  exact ⟨k, rfl, by omega, by omega⟩
              · rintro (hacc | ⟨k2, hk2, hk2p, hk2c⟩)
                · exact Or.inl hacc
                · cases hk2
                  right
                  exact ⟨k - 1, rfl, by omega, by omega⟩
          · rw [if_neg hxs, hcnt x, if_neg hxs]
            by_cases hk : k = 1
            · rw [if_pos hk]
              constructor
              · rintro (hacc | hrest)
                · rcases List.mem_append.mp hacc with h | h
                  · exact Or.inl h
                  · exact absurd (List.mem_singleton.mp h) hxs
                · simpa using Or.inr hrest
              · rintro (hacc | hrest)
                · exact Or.inl (List.mem_append.mpr (Or.inl hacc))
                · simpa using Or.inr hrest
            · rw [if_neg hk]
              simp
        · intro hnd hzero
          by_cases hk : k = 1
          · rw [if_pos hk] at ihn ⊢
            have hsacc : s ∉ acc := by
              intro hmem
              have := hzero s hmem k hs
              omega
            apply ihn
            · simpa [List.nodup_append] using ⟨hnd, hsacc⟩
            · intro x hx k2 hk2
              rw [hlook x] at hk2
              by_cases hxs : x = s
              · rw [if_pos hxs] at hk2
                cases hk2
                omega
              · rw [if_neg hxs] at hk2
                rcases List.mem_append.mp hx with h | h
                · exact hzero x h k2 hk2
                · exact absurd (List.mem_singleton.mp h) hxs
          · rw [if_neg hk] at ihn ⊢
            apply ihn hnd
            intro x hx k2 hk2
            rw [hlook x] at hk2
            by_cases hxs : x = s
            · rw [if_pos hxs] at hk2
              cases hk2
              have := hzero x hx k (hxs ▸ hs)
              omega
            · rw [if_neg hxs] at hk2
              exact hzero x hx k2 hk2

/-- A linearization respects the DAG when every emitted node is preceded by
all of its predecessors. -/
def Resp (d : DAG) (out : List Nat) : Prop :=
  ∀ l1 x l2, out = l1 ++ x :: l2 → ∀ p ∈ predsOf d x, p ∈ l1

/-- Every nonempty list of naturals has a minimum member. -/
theorem exists_min_mem (S : List Nat) (h : S ≠ []) :
    ∃ m ∈ S, ∀ b ∈ S, m ≤ b := by
  induction S with
  | nil => exact absurd rfl h
  | cons a as ih =>
      rcases as with _ | ⟨b, bs⟩
      · exact ⟨a, by simp, by simp⟩
      · rcases ih (by simp) with ⟨m, hm, hmin⟩
        by_cases hle : a ≤ m
        · refine ⟨a, by simp, ?_⟩
          intro c hc
          rcases List.mem_cons.mp hc with rfl | hc
          · exact le_refl _
          · exact le_trans hle (hmin c hc)
        · refine ⟨m, List.mem_cons.mpr (Or.inr hm), ?_⟩
          intro c hc
          rcases List.mem_cons.mp hc with rfl | hc
          · omega
          · exact hmin c hc

/-- Under a respecting prefix, emitted nodes have all predecessors
emitted. -/
theorem resp_preds_mem (d : DAG) (acc : List Nat) (hresp : Resp d acc.reverse) :
    ∀ x ∈ acc, ∀ p ∈ predsOf d x, p ∈ acc := by
  intro x hx p hp
  have hx2 : x ∈ acc.reverse := List.mem_reverse.mpr hx
  rcases List.append_of_mem hx2 with ⟨l1, l2, he⟩
  have := hresp l1 x l2 he p hp
  have : p ∈ acc.reverse := by
    rw [he]
    exact List.mem_append.mpr (Or.inl this)
  exact List.mem_reverse.mp this

/-- Invariant-carrying correctness of the Kahn loop: with enough fuel,
starting from a faithful in-degree table and a queue holding exactly the
currently ready nodes, the loop emits a permutation of the node ids and
every node after all of its predecessors. -/
theorem kahnLoop_spec (d : DAG) (hinv : d.Inv) :
    ∀ (fuel : Nat) (queue : List Nat) (indeg : List (Nat × Nat)) (acc : List Nat),
    (keys d).length ≤ fuel + acc.length →
    (acc ++ queue).Nodup →
    (∀ x ∈ acc ++ queue, x ∈ keys d) →
    (∀ x ∈ queue, countNotIn acc (predsOf d x) = 0) →
    (indeg.map (·.1) = keys d) →
    (∀ x ∈ keys d, x ∉ acc →
      indeg.lookup x = some (countNotIn acc (predsOf d x))) →
    (∀ x ∈ acc, ∀ k, indeg.lookup x = some k → k = 0) →
    (∀ x ∈ keys d, x ∉ acc → x ∉ queue →
      countNotIn acc (predsOf d x) ≠ 0) →
    Resp d acc.reverse →
    (kahnLoop d fuel queue indeg acc).Perm (keys d) ∧
      Resp d (kahnLoop d fuel queue indeg acc) := by
  obtain ⟨hknd, hpred, hsuccm, hsymm⟩ := hinv
  intro fuel
  induction fuel with
  | zero =>
      intro queue indeg acc hfuel hnd hmem _ _ _ _ _ hresp
      have hacc_nd : acc.Nodup := (List.nodup_append.mp hnd).1
      have hlen : (acc ++ queue).length ≤ (keys d).length := by
        have hsub : (acc ++ queue) ⊆ keys d := fun x hx => hmem x hx
        exact List.Subperm.length_le (List.Nodup.subperm hnd hsub)
      have hq : queue = [] := by
        have := List.length_append acc queue
        rcases queue with _ | ⟨a, as⟩
        · rfl
        · exfalso
          simp only [List.length_append, List.length_cons] at hlen
          omega
      have hacc_len : (keys d).length ≤ acc.length := by simpa using hfuel
      have hperm : acc.Perm (keys d) := by
        have hsub : acc ⊆ keys d := fun x hx =>
          hmem x (List.mem_append.mpr (Or.inl hx))
        exact (List.Nodup.subperm hacc_nd hsub).perm_of_length_le
          (by
            simp only [List.length_append] at hlen
            omega)
      subst hq
      simp only [kahnLoop]
      exact ⟨(acc.reverse_perm).trans hperm, hresp⟩
  | succ fuel ih =>
      intro queue indeg acc hfuel hnd hmem hqzero hkeys hacc hzero hE hresp
      rcases queue with _ | ⟨cur, rest⟩
      · have hperm : acc.Perm (keys d) := by
          have hacc_nd : acc.Nodup := by simpa using hnd
          have hsub : acc ⊆ keys d := fun x hx => hmem x (by simpa using hx)
          have hsup : keys d ⊆ acc := by
            intro y hy
            by_contra hy2
            have hS : keys d ≠ [] := by
              intro hk
              rw [hk] at hy
              cases hy
            rcases exists_min_mem ((keys d).filter (fun z => decide (z ∉ acc)))
              (by
                intro hS0
                have : y ∈ (keys d).filter (fun z => decide (z ∉ acc)) := by
                  rw [List.mem_filter]
                  exact ⟨hy, by simpa using hy2⟩
                rw [hS0] at this
                cases this) with ⟨m, hmS, hmin⟩
            rw [List.mem_filter] at hmS
            have hm1 : m ∈ keys d := hmS.1
            have hm2 : m ∉ acc := by simpa using hmS.2
            have hcnt : countNotIn acc (predsOf d m) ≠ 0 :=
              hE m hm1 hm2 (by simp)
            rcases countNotIn_ne_zero acc (predsOf d m) hcnt with ⟨p, hp, hpacc⟩
            have hplt := (hpred m hm1 p hp).1
            have hpk := (hpred m hm1 p hp).2
            have hpS : p ∈ (keys d).filter (fun z => decide (z ∉ acc)) := by
              rw [List.mem_filter]
              exact ⟨hpk, by simpa using hpacc⟩
            have := hmin p hpS
            omega
          exact (List.Nodup.subperm hacc_nd hsub).perm_of_length_le
            (List.Subperm.length_le (List.Nodup.subperm
              ((hknd : (keys d).Nodup)) hsup))
        simp only [kahnLoop]
        exact ⟨(acc.reverse_perm).trans hperm, hresp⟩
      · have hcurk : cur ∈ keys d :=
          hmem cur (List.mem_append.mpr (Or.inr (by simp)))
        have hcuracc : cur ∉ acc := by
          rcases List.nodup_append.mp hnd with ⟨_, _, hdisj⟩
          intro hcc
          exact hdisj hcc (by simp)
        rcases hfind : d.find? cur with _ | curNode
        · exfalso
          have : (d.find? cur).isSome = true := by
            have : (d.nodes.lookup cur).isSome = true :=
              (lookup_isSome_iff d.nodes cur).mpr hcurk
            simpa [DAG.find?] using this
          rw [hfind] at this
          cases this
        · have hsuccs : curNode.successors = succsOf d cur := by
            simp [succsOf, hfind]
          have hcount_eq : ∀ x ∈ keys d,
              (succsOf d cur).count x = (predsOf d x).count cur :=
            fun x hx => (hsymm x hx cur hcurk).symm
          have hge : ∀ x k, indeg.lookup x = some k →
              curNode.successors.count x ≤ k := by
            intro x k hk
            have hxk : x ∈ keys d := by
              rw [← hkeys]
              exact (lookup_isSome_iff indeg x).mp (by simp [hk])
            rw [hsuccs, hcount_eq x hxk]
            by_cases hxacc : x ∈ acc
            · have := hzero x hxacc k hk
              subst this
              have hsub := resp_preds_mem d acc hresp x hxacc
              have : cur ∉ predsOf d x := fun hc => hcuracc (hsub cur hc)
              simp [List.count_eq_zero.mpr this]
            · have := hacc x hxk hxacc
              rw [hk] at this
              cases this
              exact count_le_countNotIn cur acc (predsOf d x) hcuracc
          rcases kahnDec_fold_spec curNode.successors indeg [] hge with
            ⟨hdk, hdl, hdm, hdn⟩
          have hconv : List.foldl kahnDecStep (indeg, []) curNode.successors
              = kahnDecrement curNode.successors indeg := rfl
          rw [hconv] at hdk hdl hdm hdn
          have hready_nd : (kahnDecrement curNode.successors indeg).2.Nodup :=
            hdn (by simp) (by simp)
          have hready_mem : ∀ x ∈ (kahnDecrement curNode.successors indeg).2,
              x ∈ keys d := by
            intro x hx
            rcases (hdm x).mp hx with hx0 | ⟨k, hk, _, _⟩
            · cases hx0
            · rw [← hkeys]
              exact (lookup_isSome_iff indeg x).mp (by simp [hk])
          have hready_notacc : ∀ x ∈ (kahnDecrement curNode.successors indeg).2,
              x ∉ acc := by
            intro x hx hxacc
            rcases (hdm x).mp hx with hx0 | ⟨k, hk, hk0, _⟩
            · cases hx0
            · have := hzero x hxacc k hk
              omega
          have hready_notq : ∀ x ∈ (kahnDecrement curNode.successors indeg).2,
              x ∉ cur :: rest := by
            intro x hx hxq
            rcases (hdm x).mp hx with hx0 | ⟨k, hk, hk0, _⟩
            · cases hx0
            · have hxk : x ∈ keys d := hready_mem x hx
              have hxacc : x ∉ acc := hready_notacc x hx
              have := hacc x hxk hxacc
              rw [hk] at this
              cases this
              have := hqzero x hxq
              omega
          have hready_cnt : ∀ x ∈ (kahnDecrement curNode.successors indeg).2,
              countNotIn (cur :: acc) (predsOf d x) = 0 := by
            intro x hx
            rcases (hdm x).mp hx with hx0 | ⟨k, hk, hk0, hkc⟩
            · cases hx0
            · have hxk : x ∈ keys d := hready_mem x hx
              have hxacc : x ∉ acc := hready_notacc x hx
              have hlk := hacc x hxk hxacc
              rw [hk] at hlk
              cases hlk
              rw [(countNotIn_cons cur acc (predsOf d x) hcuracc).1]
              rw [← hcount_eq x hxk, ← hsuccs]
              omega
          have hstep : kahnLoop d (fuel + 1) (cur :: rest) indeg acc
              = kahnLoop d fuel
                  (rest ++ (kahnDecrement curNode.successors indeg).2)
                  (kahnDecrement curNode.successors indeg).1 (cur :: acc) := by
            simp only [kahnLoop, hfind]
          rw [hstep]
          apply ih
          · simp only [List.length_cons]
            omega
          · rw [List.nodup_append] at hnd ⊢
            rcases hnd with ⟨hand, hqnd, hdisj⟩
            rcases List.nodup_cons.mp hqnd with ⟨hcr, hrnd⟩
            constructor
            · exact List.nodup_cons.mpr ⟨hcuracc, hand⟩
            constructor
            · rw [List.nodup_append]
              refine ⟨hrnd, hready_nd, ?_⟩
              intro x hx hx2
              exact hready_notq x hx2 (by simp [hx])
            · intro x hx hx2
              rcases List.mem_cons.mp hx with rfl | hx3
              · rcases List.mem_append.mp hx2 with h | h
                · exact hcr h
                · exact hready_notq x h (by simp)
              · rcases List.mem_append.mp hx2 with h | h
                · exact hdisj hx3 (by simp [h])
                · exact hready_notacc x h hx3
          · intro x hx
            rcases List.mem_append.mp hx with h | h
            · rcases List.mem_cons.mp h with rfl | h2
              · exact hcurk
              · exact hmem x (List.mem_append.mpr (Or.inl h2))
            · rcases List.mem_append.mp h with h2 | h2
              · exact hmem x (List.mem_append.mpr (Or.inr (by simp [h2])))
              · exact hready_mem x h2
          · intro x hx
            rcases List.mem_append.mp hx with h | h
            · have h0 := hqzero x (by simp [h])
              have := countNotIn_cons_le cur acc (predsOf d x)
              omega
            · exact hready_cnt x h
          · rw [hdk]
            exact hkeys
          · intro x hxk hxacc
            have hx2 : x ∉ acc := fun hc => hxacc (by simp [hc])
            have hx3 : x ≠ cur := by
              intro hc
              exact hxacc (by simp [hc])
            rw [hdl x, hacc x hxk hx2]
            simp only [Option.map]
            rw [(countNotIn_cons cur acc (predsOf d x) hcuracc).1]
            rw [hsuccs, hcount_eq x hxk]
          · intro x hxacc k hk
            rcases List.mem_cons.mp hxacc with rfl | hx2
            · have hq0 := hqzero x (by simp)
              have hlk := hacc x hcurk hcuracc
              rw [hq0] at hlk
              rw [hdl x, hlk] at hk
              simp only [Option.map] at hk
              cases hk
              omega
            · rw [hdl x] at hk
              rcases hlk : indeg.lookup x with _ | k2
              · rw [hlk] at hk
                cases hk
              · rw [hlk] at hk
                simp only [Option.map] at hk
                cases hk
                have := hzero x hx2 k2 hlk
                omega
          · intro x hxk hxacc hxq
            have hx2 : x ∉ acc := fun hc => hxacc (by simp [hc])
            have hx3 : x ≠ cur := by
              intro hc
              exact hxacc (by simp [hc])
            have hx4 : x ∉ rest := fun hc =>
              hxq (List.mem_append.mpr (Or.inl hc))
            have hx5 : x ∉ (kahnDecrement curNode.successors indeg).2 :=
              fun hc => hxq (List.mem_append.mpr (Or.inr hc))
            have hold := hE x hxk hx2 (by
              intro hc
              rcases List.mem_cons.mp hc with h | h
              · exact hx3 h
              · exact hx4 h)
            have hlk := hacc x hxk hx2
            have hnotready := fun hc => hx5 ((hdm x).mpr (Or.inr hc))
            have hne : countNotIn acc (predsOf d x)
                ≠ curNode.successors.count x := by
              intro hc
              exact hnotready ⟨countNotIn acc (predsOf d x), hlk, by omega, by
                omega⟩
            have hge2 := hge x (countNotIn acc (predsOf d x)) hlk
            rw [(countNotIn_cons cur acc (predsOf d x) hcuracc).1]
            rw [← hcount_eq x hxk, ← hsuccs]
            omega
          · intro l1 x l2 hsplit p hp
            rw [List.reverse_cons] at hsplit
            rcases List.append_eq_append_iff.mp hsplit.symm with
              ⟨a2, ha1, ha2⟩ | ⟨c2, hc1, hc2⟩
            · rcases a2 with _ | ⟨y, ys⟩
              · have hxcur : x = cur := by
                  have h2 := ha2
                  simp only [List.nil_append] at h2
                  exact ((List.cons.injEq _ _ _ _).mp h2).1
                have hl1 : l1 = acc.reverse := by simpa using ha1.symm
                rw [hxcur] at hp
                rw [hl1]
                have h0 := hqzero cur (by simp)
                have hmemacc :=
                  (countNotIn_eq_zero acc (predsOf d cur)).mp h0 p hp
                exact List.mem_reverse.mpr hmemacc
              · have h2 := ha2
                simp only [List.cons_append] at h2
                have hyx : x = y := ((List.cons.injEq _ _ _ _).mp h2).1
                rw [hyx] at hp
                exact hresp l1 y ys ha1 p hp
            · rcases c2 with _ | ⟨z, zs⟩
              · have h2 := hc2
                simp only [List.nil_append] at h2
                have hxcur : x = cur :=
                  ((List.cons.injEq _ _ _ _).mp h2.symm).1
                have hl1 : l1 = acc.reverse := by simpa using hc1
                rw [hxcur] at hp
                rw [hl1]
                have h0 := hqzero cur (by simp)
                have hmemacc :=
                  (countNotIn_eq_zero acc (predsOf d cur)).mp h0 p hp
                exact List.mem_reverse.mpr hmemacc
              · exfalso
                have h2 := hc2
                simp only [List.cons_append] at h2
                have h3 := ((List.cons.injEq _ _ _ _).mp h2).2
                exact (List.cons_ne_nil x l2)
                  (List.append_eq_nil.mp h3.symm).2

/-- On any DAG satisfying the structural invariant, the embedded
`DAG::topologicalOrder` loop emits every node exactly once, each after all
of its predecessors. -/
theorem topologicalOrderRaw_spec (d : DAG) (hinv : d.Inv) :
    d.topologicalOrderRaw.Perm (keys d) ∧ Resp d d.topologicalOrderRaw := by
  have hknd : (keys d).Nodup := hinv.1
  unfold DAG.topologicalOrderRaw
  simp only
  set indeg0 := d.nodes.map (fun p => (p.1, p.2.predecessors.length)) with hindeg0
  set seeds := (indeg0.filter (fun p => p.2 == 0)).map (·.1) with hseeds
  have hkeys0 : indeg0.map (·.1) = keys d := by
    rw [hindeg0, List.map_map]
    rfl
  have hlook0 : ∀ x, indeg0.lookup x
      = (d.nodes.lookup x).map (fun n => n.predecessors.length) := by
    intro x
    rw [hindeg0]
    exact lookup_map_snd d.nodes (fun n => n.predecessors.length) x
  have hseeds_sub : seeds.Sublist (keys d) := by
    rw [hseeds, ← hkeys0]
    exact List.Sublist.map _ (List.filter_sublist indeg0)
  have hseeds_nd : seeds.Nodup := List.Nodup.sublist hseeds_sub hknd
  have hseeds_mem : ∀ x ∈ seeds, x ∈ keys d := fun x hx =>
    hseeds_sub.subset hx
  have hnode_of_key : ∀ x ∈ keys d, ∃ n, d.nodes.lookup x = some n := by
    intro x hx
    have := (lookup_isSome_iff d.nodes x).mpr hx
    rcases h : d.nodes.lookup x with _ | n
    · rw [h] at this
      cases this
    · exact ⟨n, rfl⟩
  have hpreds_eq : ∀ x n, d.nodes.lookup x = some n →
      predsOf d x = n.predecessors := by
    intro x n h
    simp [predsOf, DAG.find?, h]
  have hlen : (keys d).length = d.nodes.length := by
    simp [keys]
  have hmain := kahnLoop_spec d hinv d.nodes.length seeds indeg0 []
    (by simp [hlen])
    (by simpa using hseeds_nd)
    (by simpa using hseeds_mem)
    (by
      intro x hx
      rw [hseeds] at hx
      rcases List.mem_map.mp hx with ⟨pair, hpair, hfst⟩
      rw [List.mem_filter] at hpair
      have hx0 : pair.2 = 0 := by simpa using hpair.2
      have hpair_mem : pair ∈ indeg0 := hpair.1
      rw [hindeg0] at hpair_mem
      rcases List.mem_map.mp hpair_mem with ⟨q, hq, hqe⟩
      rcases hnode_of_key x (by
        rw [← hfst, ← hqe]
        exact List.mem_map.mpr ⟨q, hq, rfl⟩) with ⟨n, hn⟩
      rw [countNotIn_nil, hpreds_eq x n hn]
      have hlx := hlook0 x
      rw [hn] at hlx
      have hxpair : indeg0.lookup x = some pair.2 := by
        apply mem_lookup
        · rw [hkeys0]
          exact hknd
        · rw [← hfst]
          exact hpair.1
      rw [hlx] at hxpair
      have : n.predecessors.length = pair.2 := by
        injection hxpair
      omega)
    hkeys0
    (by
      intro x hx _
      rcases hnode_of_key x hx with ⟨n, hn⟩
      rw [hlook0 x, hn, hpreds_eq x n hn, countNotIn_nil]
      rfl)
    (by intro x hx; cases hx)
    (by
      intro x hx _ hxs
      rcases hnode_of_key x hx with ⟨n, hn⟩
      rw [countNotIn_nil, hpreds_eq x n hn]
      intro h0
      apply hxs
      rw [hseeds]
      refine List.mem_map.mpr ⟨(x, n.predecessors.length), ?_, rfl⟩
      rw [List.mem_filter]
      constructor
      · rw [hindeg0]
        exact List.mem_map.mpr ⟨(x, n), lookup_mem d.nodes x n hn, rfl⟩
      · simp [h0])
    (by
      intro l1 x l2 hsplit
      exact absurd hsplit.symm (by simp))
  exact hmain

/-- On an invariant-satisfying DAG the cycle check never fires. -/
theorem topologicalOrder_ok (d : DAG) (hinv : d.Inv) :
    d.topologicalOrder = .ok d.topologicalOrderRaw := by
  unfold DAG.topologicalOrder
  rw [if_pos]
  have hperm := (topologicalOrderRaw_spec d hinv).1
  have := hperm.length_eq
  simpa [keys] using this

/-- Lookup through a single-key value update (the shape of
`DAG.modifyNode` and `DAG.setNode`). -/
theorem lookup_mapIf {α : Type} (l : List (Nat × α)) (k : Nat) (f : α → α)
    (x : Nat) :
    (l.map (fun p => if p.1 = k then (p.1, f p.2) else p)).lookup x
      = if x = k then (l.lookup x).map f else l.lookup x := by
  induction l with
  | nil => by_cases hx : x = k <;> simp [hx]
  | cons p ps ih =>
      simp only [List.map_cons]
      by_cases hp : p.1 = k
      · rw [if_pos hp]
        by_cases hx : x = p.1
        · have hb : (x == p.1) = true := by simpa using hx
          have hxk : x = k := hx.trans hp
          have hb2 : (k == p.1) = true := by simpa using hp.symm
          simp [List.lookup, hb, hxk, hb2]
        · have hb : (x == p.1) = false := by simpa using hx
          simp only [List.lookup, hb]
          exact ih
      · rw [if_neg hp]
        by_cases hx : x = p.1
        · have hb : (x == p.1) = true := by simpa using hx
          have hxk : ¬ x = k := fun hc => hp (hx.symm.trans hc)
          simp [List.lookup, hb, hxk]
        · have hb : (x == p.1) = false := by simpa using hx
          simp only [List.lookup, hb]
          exact ih

/-- A single-key value update keeps the key list. -/
theorem keys_mapIf {α : Type} (l : List (Nat × α)) (k : Nat) (f : α → α) :
    (l.map (fun p => if p.1 = k then (p.1, f p.2) else p)).map (·.1)
      = l.map (·.1) := by
  induction l with
  | nil => rfl
  | cons p ps ih =>
      simp only [List.map_cons]
      by_cases hp : p.1 = k
      · rw [if_pos hp]
        simp [ih]
      · rw [if_neg hp]
        simp [ih]

/-- Lookup distributes over list append, preferring the first list. -/
theorem lookup_append {α : Type} (l1 l2 : List (Nat × α)) (x : Nat) :
    (l1 ++ l2).lookup x =
      match l1.lookup x with
      | some v => some v
      | none => l2.lookup x := by
  induction l1 with
  | nil => simp [List.lookup]
  | cons p ps ih =>
      by_cases hx : x = p.1
      · have hb : (x == p.1) = true := by simpa using hx
        simp [List.lookup, hb]
      · have hb : (x == p.1) = false := by simpa using hx
        simp only [List.cons_append, List.lookup, hb]
        exact ih

/-- `getD` after `set` at the written index (in range). -/
theorem getD_set_self {α : Type} (l : List α) (q : Nat) (v d : α)
    (h : q < l.length) : (l.set q v).getD q d = v := by
  induction l generalizing q with
  | nil => simp at h
  | cons a as ih =>
      cases q with
      | zero => simp
      | succ n =>
          simp only [List.set_cons_succ, List.getD_cons_succ]
          exact ih n (by simpa using h)

/-- `getD` after `set` at another index. -/
theorem getD_set_ne {α : Type} (l : List α) (q q2 : Nat) (v d : α)
    (h : q2 ≠ q) : (l.set q v).getD q2 d = l.getD q2 d := by
  induction l generalizing q q2 with
  | nil => simp
  | cons a as ih =>
      cases q with
      | zero =>
          cases q2 with
          | zero => exact absurd rfl h
          | succ m => simp
      | succ n =>
          cases q2 with
          | zero => simp
          | succ m =>
              simp only [List.set_cons_succ, List.getD_cons_succ]
              exact ih n m (fun hc => h (by rw [hc]))

/-- Setting beyond the end of a list is a no-op. -/
theorem set_oob {α : Type} (l : List α) (q : Nat) (v : α)
    (h : l.length ≤ q) : l.set q v = l := by
  induction l generalizing q with
  | nil => rfl
  | cons a as ih =>
      cases q with
      | zero => simp at h
      | succ n =>
          simp only [List.set_cons_succ]
          rw [ih n (by simpa using h)]

/-- Characterization of the qubit-wiring fold of `DAG::addGate`: the
collected predecessors are the defined `last` cursors of the gate's qubits
in order, each such predecessor node gains one successor entry `id` per
wiring, the cursors of the processed (in-range) qubits point at `id`, and
nothing else changes. -/
theorem addGateFold_spec (id : Nat) (qs : List Nat) :
    ∀ (ps : List Nat) (dag : DAG), qs.Nodup →
    (qs.foldl (addGateStep id) (ps, dag)).1
      = ps ++ qs.filterMap (fun q => dag.lastGateOnQubit.getD q none) ∧
    (qs.foldl (addGateStep id) (ps, dag)).2.nodes
      = dag.nodes.map (fun p => (p.1,
          { p.2 with successors := p.2.successors ++ List.replicate ((qs.filterMap (fun q => dag.lastGateOnQubit.getD q none)).count p.1) id })) ∧
    (qs.foldl (addGateStep id) (ps, dag)).2.numQubits = dag.numQubits ∧
    (qs.foldl (addGateStep id) (ps, dag)).2.nextGateId = dag.nextGateId ∧
    (∀ q0, (qs.foldl (addGateStep id) (ps, dag)).2.lastGateOnQubit.getD q0 none
      = if q0 ∈ qs ∧ q0 < dag.lastGateOnQubit.length then some id
        else dag.lastGateOnQubit.getD q0 none) ∧
    (qs.foldl (addGateStep id) (ps, dag)).2.lastGateOnQubit.length
      = dag.lastGateOnQubit.length := by
  induction qs with
  | nil =>
      intro ps dag _
      refine ⟨by simp, ?_, rfl, rfl, by simp, rfl⟩
      simp
  | cons q qs ih =>
      intro ps dag hnd
      rcases List.nodup_cons.mp hnd with ⟨hqn, hnd2⟩
      simp only [List.foldl_cons]
      rcases hq : dag.lastGateOnQubit.getD q none with _ | pred
      · have hstep : addGateStep id (ps, dag) q
            = (ps, { dag with
                lastGateOnQubit := dag.lastGateOnQubit.set q (some id) }) := by
          unfold addGateStep
          rw [hq]
        rw [hstep]
        set dagA : DAG := { dag with
          lastGateOnQubit := dag.lastGateOnQubit.set q (some id) } with hdagA
        have hagree : ∀ q2 ∈ qs, dagA.lastGateOnQubit.getD q2 none
            = dag.lastGateOnQubit.getD q2 none := by
          intro q2 hq2
          rw [hdagA]
          exact getD_set_ne _ q q2 _ _ (fun hc => hqn (hc ▸ hq2))
        have hfm : qs.filterMap (fun q2 => dagA.lastGateOnQubit.getD q2 none)
            = qs.filterMap (fun q2 => dag.lastGateOnQubit.getD q2 none) :=
          List.filterMap_congr hagree
        rcases ih ps dagA hnd2 with ⟨ih1, ih2, ih3, ih4, ih5, ih6⟩
        have hΦ : (q :: qs).filterMap
            (fun q2 => dag.lastGateOnQubit.getD q2 none)
            = qs.filterMap (fun q2 => dag.lastGateOnQubit.getD q2 none) := by
          rw [List.filterMap_cons, hq]
        refine ⟨?_, ?_, by rw [ih3], by rw [ih4], ?_, ?_⟩
        · rw [ih1, hfm, hΦ]
        · rw [ih2, hfm, hΦ]
        · intro q0
          rw [ih5 q0]
          have hlenA : dagA.lastGateOnQubit.length
              = dag.lastGateOnQubit.length := by
            rw [hdagA]
            simp
          by_cases hq0 : q0 ∈ qs
          · have hq0q : q0 ≠ q := fun hc => hqn (hc ▸ hq0)
            rw [hlenA]
            by_cases hlt : q0 < dag.lastGateOnQubit.length
            · rw [if_pos ⟨hq0, hlt⟩, if_pos ⟨by simp [hq0], hlt⟩]
            · rw [if_neg (fun hc => hlt hc.2), if_neg (fun hc => hlt hc.2)]
              rw [hdagA]
              exact getD_set_ne _ q q0 _ _ hq0q
          · rw [if_neg (fun hc => hq0 (hlenA ▸ hc).1)]
            by_cases hq0q : q0 = q
            · subst hq0q
              by_cases hlt : q0 < dag.lastGateOnQubit.length
              · rw [if_pos ⟨by simp, hlt⟩]
                rw [hdagA]
                exact getD_set_self _ q0 _ _ hlt
              · rw [if_neg (fun hc => hlt hc.2)]
                rw [hdagA]
                have : dag.lastGateOnQubit.set q0 (some id)
                    = dag.lastGateOnQubit := set_oob _ _ _ (by omega)
                simp only [this]
            · rw [if_neg (by
                rintro ⟨hmem, _⟩
                rcases List.mem_cons.mp hmem with h | h
                · exact hq0q h
                · exact hq0 h)]
              rw [hdagA]
              exact getD_set_ne _ q q0 _ _ hq0q
        · rw [ih6, hdagA]
          simp
      · have hstep : addGateStep id (ps, dag) q
            = (ps ++ [pred],
               { dag with
                 nodes := dag.nodes.map (fun p => if p.1 = pred then
                   (p.1, { p.2 with successors := p.2.successors ++ [id] })
                   else p)
                 lastGateOnQubit := dag.lastGateOnQubit.set q (some id) }) := by
          unfold addGateStep
          rw [hq]
          rfl
        rw [hstep]
        set dagB : DAG := { dag with
          nodes := dag.nodes.map (fun p => if p.1 = pred then
            (p.1, { p.2 with successors := p.2.successors ++ [id] })
            else p)
          lastGateOnQubit := dag.lastGateOnQubit.set q (some id) } with hdagB
        have hagree : ∀ q2 ∈ qs, dagB.lastGateOnQubit.getD q2 none
            = dag.lastGateOnQubit.getD q2 none := by
          intro q2 hq2
          rw [hdagB]
          exact getD_set_ne _ q q2 _ _ (fun hc => hqn (hc ▸ hq2))
        have hfm : qs.filterMap (fun q2 => dagB.lastGateOnQubit.getD q2 none)
            = qs.filterMap (fun q2 => dag.lastGateOnQubit.getD q2 none) :=
          List.filterMap_congr hagree
        rcases ih (ps ++ [pred]) dagB hnd2 with ⟨ih1, ih2, ih3, ih4, ih5, ih6⟩
        have hΦ : (q :: qs).filterMap
            (fun q2 => dag.lastGateOnQubit.getD q2 none)
            = pred :: qs.filterMap
                (fun q2 => dag.lastGateOnQubit.getD q2 none) := by
          rw [List.filterMap_cons, hq]
        refine ⟨?_, ?_, by rw [ih3], by rw [ih4], ?_, ?_⟩
        · rw [ih1, hfm, hΦ]
          simp
        · rw [ih2, hfm, hΦ]
          rw [hdagB]
          simp only [List.map_map]
          apply List.map_congr_left
          intro p _
          simp only [Function.comp]
          by_cases hp : p.1 = pred
          · rw [if_pos hp]
            have hc1 : (pred :: qs.filterMap
                (fun q2 => dag.lastGateOnQubit.getD q2 none)).count p.1
                = (qs.filterMap
                    (fun q2 => dag.lastGateOnQubit.getD q2 none)).count p.1
                  + 1 := by
              rw [List.count_cons]
              simp [hp]
            rw [hc1]
            simp [List.append_assoc, List.replicate_succ]
          · rw [if_neg hp]
            have hc1 : (pred :: qs.filterMap
                (fun q2 => dag.lastGateOnQubit.getD q2 none)).count p.1
                = (qs.filterMap
                    (fun q2 => dag.lastGateOnQubit.getD q2 none)).count p.1 := by
              rw [List.count_cons]
              have hne : ¬ pred = p.1 := fun h => hp h.symm
              simp [hne]
            rw [hc1]
        · intro q0
          rw [ih5 q0]
          have hlenB : dagB.lastGateOnQubit.length
              = dag.lastGateOnQubit.length := by
            rw [hdagB]
            simp
          by_cases hq0 : q0 ∈ qs
          · have hq0q : q0 ≠ q := fun hc => hqn (hc ▸ hq0)
            rw [hlenB]
            by_cases hlt : q0 < dag.lastGateOnQubit.length
            · rw [if_pos ⟨hq0, hlt⟩, if_pos ⟨by simp [hq0], hlt⟩]
            · rw [if_neg (fun hc => hlt hc.2), if_neg (fun hc => hlt hc.2)]
              rw [hdagB]
              exact getD_set_ne _ q q0 _ _ hq0q
          · rw [if_neg (fun hc => hq0 (hlenB ▸ hc).1)]
            by_cases hq0q : q0 = q
            · subst hq0q
              by_cases hlt : q0 < dag.lastGateOnQubit.length
              · rw [if_pos ⟨by simp, hlt⟩]
                rw [hdagB]
                exact getD_set_self _ q0 _ _ hlt
              · rw [if_neg (fun hc => hlt hc.2)]
                rw [hdagB]
                have : dag.lastGateOnQubit.set q0 (some id)
                    = dag.lastGateOnQubit := set_oob _ _ _ (by omega)
                simp only [this]
            · rw [if_neg (by
                rintro ⟨hmem, _⟩
                rcases List.mem_cons.mp hmem with h | h
                · exact hq0q h
                · exact hq0 h)]
              rw [hdagB]
              exact getD_set_ne _ q q0 _ _ hq0q
        · rw [ih6, hdagB]
          simp

/-- Lookup through a key-dependent value map. -/
theorem lookup_map_keyed {α β : Type} (l : List (Nat × α))
    (f : Nat → α → β) (x : Nat) :
    (l.map (fun p => (p.1, f p.1 p.2))).lookup x = (l.lookup x).map (f x) := by
  induction l with
  | nil => simp
  | cons p ps ih =>
      simp only [List.map_cons]
      by_cases hx : x = p.1
      · have hb : (x == p.1) = true := by simpa using hx
        subst hx
        simp [List.lookup, hb]
      · have hb : (x == p.1) = false := by simpa using hx
        simp only [List.lookup, hb]
        exact ih

/-- The reachability invariant carried through `addGate` inductions: the
structural `Inv` plus id-counter and cursor facts. -/
def DAG.ReachInv (d : DAG) : Prop :=
  d.Inv ∧
  (∀ x ∈ keys d, x < d.nextGateId) ∧
  (∀ q u, d.lastGateOnQubit.getD q none = some u → u ∈ keys d) ∧
  d.lastGateOnQubit.length = d.numQubits

/-- Full characterization of `DAG.addGate` on a gate with distinct qubits:
new key list, new and old adjacency, and cursor/counter updates. -/
theorem addGate_spec (d : DAG) (g : Gate) (hg : g.qubits.Nodup)
    (hid : ∀ x ∈ keys d, x < d.nextGateId) :
    keys (d.addGate g) = keys d ++ [d.nextGateId] ∧
    (d.addGate g).numQubits = d.numQubits ∧
    (d.addGate g).nextGateId = d.nextGateId + 1 ∧
    (∀ x ∈ keys d, predsOf (d.addGate g) x = predsOf d x ∧
      succsOf (d.addGate g) x = succsOf d x ++ List.replicate
        ((g.qubits.filterMap
          (fun q => d.lastGateOnQubit.getD q none)).count x) d.nextGateId) ∧
    predsOf (d.addGate g) d.nextGateId
      = g.qubits.filterMap (fun q => d.lastGateOnQubit.getD q none) ∧
    succsOf (d.addGate g) d.nextGateId = [] ∧
    (∀ q0, (d.addGate g).lastGateOnQubit.getD q0 none
      = if q0 ∈ g.qubits ∧ q0 < d.lastGateOnQubit.length then some d.nextGateId
        else d.lastGateOnQubit.getD q0 none) ∧
    (d.addGate g).lastGateOnQubit.length = d.lastGateOnQubit.length ∧
    (d.addGate g).nodes.map (fun p => p.2.gate.core)
      = d.nodes.map (fun p => p.2.gate.core) ++ [g.core] := by
  rcases addGateFold_spec d.nextGateId g.qubits [] d hg with
    ⟨h1, h2, h3, h4, h5, h6⟩
  have hnodes_da : (d.addGate g).nodes = (g.qubits.foldl (addGateStep d.nextGateId) ([], d)).2.nodes ++ [(d.nextGateId, { gate := { g with id := d.nextGateId }, predecessors := (g.qubits.foldl (addGateStep d.nextGateId) ([], d)).1 })] := rfl
  have hnq_da : (d.addGate g).numQubits = (g.qubits.foldl (addGateStep d.nextGateId) ([], d)).2.numQubits := rfl
  have hng_da : (d.addGate g).nextGateId = d.nextGateId + 1 := rfl
  have hlast_da : (d.addGate g).lastGateOnQubit = (g.qubits.foldl (addGateStep d.nextGateId) ([], d)).2.lastGateOnQubit := rfl
  set Φ := g.qubits.filterMap (fun q => d.lastGateOnQubit.getD q none) with hΦ
  have hmapped : (g.qubits.foldl (addGateStep d.nextGateId) ([], d)).2.nodes = d.nodes.map (fun p => (p.1, { p.2 with successors := p.2.successors ++ List.replicate (Φ.count p.1) d.nextGateId })) := h2
  have hidnk : d.nextGateId ∉ keys d := by
    intro hc
    exact absurd (hid _ hc) (by omega)
  have hmkeys : ((g.qubits.foldl (addGateStep d.nextGateId) ([], d)).2.nodes).map (·.1)
      = keys d := by
    rw [hmapped, List.map_map]
    rfl
  have hlookup_mapped : ∀ x, ((g.qubits.foldl (addGateStep d.nextGateId) ([], d)).2.nodes).lookup x = (d.nodes.lookup x).map (fun n => { n with successors := n.successors ++ List.replicate (Φ.count x) d.nextGateId }) := by
    intro x
    rw [hmapped]
    exact lookup_map_keyed d.nodes (fun k n => { n with successors := n.successors ++ List.replicate (Φ.count k) d.nextGateId }) x
  have hfind : ∀ x, (d.addGate g).find? x = ((d.nodes.lookup x).map (fun n => { n with successors := n.successors ++ List.replicate (Φ.count x) d.nextGateId })).elim (if x = d.nextGateId then some { gate := { g with id := d.nextGateId }, predecessors := (g.qubits.foldl (addGateStep d.nextGateId) ([], d)).1 } else none) some := by
    intro x
    unfold DAG.find?
    rw [hnodes_da, lookup_append, hlookup_mapped x]
    rcases hl : d.nodes.lookup x with _ | n
    · simp only [Option.map_none, Option.elim, List.lookup]
      by_cases hx : x = d.nextGateId
      · have hb : (x == d.nextGateId) = true := by simpa using hx
        simp [hb, hx]
      · have hb : (x == d.nextGateId) = false := by simpa using hx
        simp [hb, hx]
    · rfl
  have hnode_of_key : ∀ x ∈ keys d, ∃ n, d.nodes.lookup x = some n := by
    intro x hx
    have := (lookup_isSome_iff d.nodes x).mpr hx
    rcases h : d.nodes.lookup x with _ | n
    · rw [h] at this
      cases this
    · exact ⟨n, rfl⟩
  have hlookup_none : ∀ x, x ∉ keys d → d.nodes.lookup x = none := by
    intro x hx
    rcases h : d.nodes.lookup x with _ | n
    · rfl
    · exact absurd ((lookup_isSome_iff d.nodes x).mp (by simp [h])) hx
  refine ⟨?_, ?_, ?_, ?_, ?_, ?_, ?_, ?_, ?_⟩
  · show (d.addGate g).nodes.map (·.1) = _
    rw [hnodes_da, List.map_append, hmkeys]
    rfl
  · rw [hnq_da]
    exact h3
  · exact hng_da
  · intro x hx
    rcases hnode_of_key x hx with ⟨n, hn⟩
    constructor
    · unfold predsOf
      rw [hfind x]
      unfold DAG.find?
      rw [hn]
      rfl
    · unfold succsOf
      rw [hfind x]
      unfold DAG.find?
      rw [hn]
      rfl
  · unfold predsOf
    rw [hfind _, hlookup_none _ hidnk, h1]
    simp
  · unfold succsOf
    rw [hfind _, hlookup_none _ hidnk]
    simp
  · intro q0
    rw [hlast_da]
    exact h5 q0
  · rw [hlast_da]
    exact h6
  · rw [hnodes_da, List.map_append, hmapped, List.map_map]
    rfl

/-- `addGate` preserves the reachability invariant (distinct qubits assumed,
as `Circuit.WF` guarantees). -/
theorem addGate_reachInv (d : DAG) (g : Gate) (hg : g.qubits.Nodup)
    (h : d.ReachInv) : (d.addGate g).ReachInv := by
  obtain ⟨⟨hnd, hpred, hsucc, hcount⟩, hid, hcur, hlen⟩ := h
  obtain ⟨hk, hnq, hni, hold, hpnew, hsnew, hcurnew, hlennew, _⟩ :=
    addGate_spec d g hg hid
  set Φ := g.qubits.filterMap (fun q => d.lastGateOnQubit.getD q none) with hΦ
  have hΦsub : ∀ p ∈ Φ, p ∈ keys d := by
    intro p hp
    rw [hΦ] at hp
    rcases List.mem_filterMap.mp hp with ⟨q, _, hq⟩
    exact hcur q p hq
  have hidself : d.nextGateId ∉ keys d := by
    intro hc
    exact absurd (hid _ hc) (by omega)
  have hmem : ∀ x, x ∈ keys (d.addGate g) ↔ x ∈ keys d ∨ x = d.nextGateId := by
    intro x
    rw [hk]
    simp
  refine ⟨⟨?_, ?_, ?_, ?_⟩, ?_, ?_, ?_⟩
  · rw [hk, List.nodup_append]
    refine ⟨hnd, List.nodup_singleton _, ?_⟩
    intro a ha hb
    rw [List.mem_singleton] at hb
    subst hb
    exact hidself ha
  · intro x hx p hp
    rcases (hmem x).mp hx with hxd | hxid
    · rw [(hold x hxd).1] at hp
      rcases hpred x hxd p hp with ⟨h1p, h2p⟩
      exact ⟨h1p, (hmem p).mpr (Or.inl h2p)⟩
    · subst hxid
      rw [hpnew] at hp
      have hpk := hΦsub p hp
      exact ⟨hid p hpk, (hmem p).mpr (Or.inl hpk)⟩
  · intro x hx s hs
    rcases (hmem x).mp hx with hxd | hxid
    · rw [(hold x hxd).2] at hs
      rcases List.mem_append.mp hs with hs1 | hs2
      · exact (hmem s).mpr (Or.inl (hsucc x hxd s hs1))
      · have := List.eq_of_mem_replicate hs2
        exact (hmem s).mpr (Or.inr this)
    · subst hxid
      rw [hsnew] at hs
      cases hs
  · intro x hx p hp
    rcases (hmem x).mp hx with hxd | hxid
    · rcases (hmem p).mp hp with hpd | hpid
      · rw [(hold x hxd).1, (hold p hpd).2, List.count_append]
        have hxne : ¬ x = d.nextGateId := by
          intro hc
          exact hidself (hc ▸ hxd)
        have hz : (List.replicate (Φ.count p) d.nextGateId).count x = 0 := by
          rw [List.count_eq_zero]
          intro hc
          exact hxne (List.eq_of_mem_replicate hc)
        rw [hz]
        have := hcount x hxd p hpd
        omega
      · subst hpid
        rw [(hold x hxd).1, hsnew]
        have hnp : d.nextGateId ∉ predsOf d x := by
          intro hc
          exact hidself (hpred x hxd _ hc).2
        rw [List.count_eq_zero.mpr hnp]
        rfl
    · subst hxid
      rcases (hmem p).mp hp with hpd | hpid
      · rw [hpnew, (hold p hpd).2, List.count_append,
          List.count_replicate_self]
        have hns : d.nextGateId ∉ succsOf d p := by
          intro hc
          exact hidself (hsucc p hpd _ hc)
        rw [List.count_eq_zero.mpr hns]
        omega
      · subst hpid
        rw [hpnew, hsnew]
        have hnp : d.nextGateId ∉ Φ := by
          intro hc
          exact hidself (hΦsub _ hc)
        rw [List.count_eq_zero.mpr hnp]
        rfl
  · intro x hx
    rw [hni]
    rcases (hmem x).mp hx with hxd | hxid
    · have := hid x hxd
      omega
    · omega
  · intro q u hq
    rw [hcurnew q] at hq
    by_cases hc : q ∈ g.qubits ∧ q < d.lastGateOnQubit.length
    · rw [if_pos hc] at hq
      exact (hmem u).mpr (Or.inr (Option.some_injective _ hq).symm)
    · rw [if_neg hc] at hq
      exact (hmem u).mpr (Or.inl (hcur q u hq))
  · rw [hlennew, hnq, hlen]

/-- The empty DAG satisfies the reachability invariant. -/
theorem empty_reachInv (n : Nat) : (DAG.empty n).ReachInv := by
  refine ⟨⟨?_, ?_, ?_, ?_⟩, ?_, ?_, ?_⟩
  · simp [keys, DAG.empty]
  · intro x hx
    simp [keys, DAG.empty] at hx
  · intro x hx
    simp [keys, DAG.empty] at hx
  · intro x hx
    simp [keys, DAG.empty] at hx
  · intro x hx
    simp [keys, DAG.empty] at hx
  · intro q u hq
    have hnone : (List.replicate n (none : Option Nat)).getD q none = none := by
      rcases h : (List.replicate n (none : Option Nat)).get? q with _ | v
      · simp [List.getD, h]
      · have hv : v ∈ List.replicate n (none : Option Nat) := List.get?_mem h
        have := List.eq_of_mem_replicate hv
        simp [List.getD, h, this]
    rw [show (DAG.empty n).lastGateOnQubit = List.replicate n none from rfl,
      hnone] at hq
    cases hq
  · simp [DAG.empty]

/-- Folding `addGate` over gates with distinct qubits preserves `ReachInv`. -/
theorem foldl_addGate_reachInv (gs : List Gate) :
    ∀ d : DAG, d.ReachInv → (∀ g ∈ gs, g.qubits.Nodup) →
    (gs.foldl DAG.addGate d).ReachInv := by
  induction gs with
  | nil => intro d hd _; exact hd
  | cons g rest ih =>
      intro d hd hw
      have hg : g.qubits.Nodup := hw g (by simp)
      have hrest : ∀ g0 ∈ rest, g0.qubits.Nodup := by
        intro g0 h0
        exact hw g0 (by simp [h0])
      exact ih (d.addGate g) (addGate_reachInv d g hg hd) hrest

/-- Folding `addGate` appends the gate contents (up to ids) in order. -/
theorem foldl_addGate_core (gs : List Gate) :
    ∀ d : DAG, d.ReachInv → (∀ g ∈ gs, g.qubits.Nodup) →
    (gs.foldl DAG.addGate d).nodes.map (fun p => p.2.gate.core)
      = d.nodes.map (fun p => p.2.gate.core) ++ gs.map Gate.core := by
  induction gs with
  | nil => intro d _ _; simp
  | cons g rest ih =>
      intro d hd hw
      have hg : g.qubits.Nodup := hw g (by simp)
      have hrest : ∀ g0 ∈ rest, g0.qubits.Nodup := by
        intro g0 h0
        exact hw g0 (by simp [h0])
      obtain ⟨_, _, _, _, _, _, _, _, hcore⟩ :=
        addGate_spec d g hg hd.2.1
      rw [List.foldl_cons, ih (d.addGate g) (addGate_reachInv d g hg hd) hrest,
        hcore]
      simp

/-- `fromCircuit` on a well-formed circuit yields a DAG satisfying the
reachability invariant. -/
theorem fromCircuit_reachInv (c : Circuit) (hw : Circuit.WF c) :
    (DAG.fromCircuit c).ReachInv := by
  unfold DAG.fromCircuit
  exact foldl_addGate_reachInv c.gates (DAG.empty c.numQubits)
    (empty_reachInv c.numQubits) (fun g hg => (hw g hg).2.2)

/-- `fromCircuit` stores exactly the circuit's gates, in order, up to ids. -/
theorem fromCircuit_core (c : Circuit) (hw : Circuit.WF c) :
    (DAG.fromCircuit c).nodes.map (fun p => p.2.gate.core)
      = c.gates.map Gate.core := by
  unfold DAG.fromCircuit
  rw [foldl_addGate_core c.gates (DAG.empty c.numQubits)
    (empty_reachInv c.numQubits) (fun g hg => (hw g hg).2.2)]
  simp [DAG.empty]

/-- `addGate` never changes the register size. -/
theorem addGateStep_numQubits (id : Nat) (s : List Nat × DAG) (q : Nat) :
    (addGateStep id s q).2.numQubits = s.2.numQubits := by
  unfold addGateStep
  rcases s.2.lastGateOnQubit.getD q none with _ | pred <;> rfl

/-- The qubit-wiring fold preserves the register size unconditionally. -/
theorem addGateFold_numQubits (id : Nat) (qs : List Nat) :
    ∀ s : List Nat × DAG,
    (qs.foldl (addGateStep id) s).2.numQubits = s.2.numQubits := by
  induction qs with
  | nil => intro s; rfl
  | cons q rest ih =>
      intro s
      rw [List.foldl_cons, ih (addGateStep id s q), addGateStep_numQubits]

/-- `addGate` preserves the register size. -/
theorem addGate_numQubits (d : DAG) (g : Gate) :
    (d.addGate g).numQubits = d.numQubits :=
  addGateFold_numQubits d.nextGateId g.qubits ([], d)

/-- `fromCircuit` preserves the register size. -/
theorem fromCircuit_numQubits (c : Circuit) :
    (DAG.fromCircuit c).numQubits = c.numQubits := by
  unfold DAG.fromCircuit
  have h : ∀ (gs : List Gate) (d : DAG),
      (gs.foldl DAG.addGate d).numQubits = d.numQubits := by
    intro gs
    induction gs with
    | nil => intro d; rfl
    | cons g rest ih =>
        intro d
        rw [List.foldl_cons, ih (d.addGate g), addGate_numQubits]
  rw [h]
  rfl

/-- On a cycle-free DAG, `toCircuit` succeeds with the Kahn order fold. -/
theorem toCircuit_eq (d : DAG) (hinv : d.Inv) :
    d.toCircuit = .ok (d.topologicalOrderRaw.foldl (toCircuitStep d)
      { numQubits := d.numQubits }) := by
  unfold DAG.toCircuit
  rw [topologicalOrder_ok d hinv]
  rfl

/-- Content and register size of the `toCircuit` emission fold. -/
theorem toCircuitFold_spec (d : DAG) (ids : List Nat) :
    ∀ c0 : Circuit,
    (ids.foldl (toCircuitStep d) c0).gates.map Gate.core
        = c0.gates.map Gate.core
          ++ ids.filterMap (fun i => (d.find? i).map (fun n => n.gate.core)) ∧
    (ids.foldl (toCircuitStep d) c0).numQubits = c0.numQubits := by
  induction ids with
  | nil => intro c0; simp
  | cons i rest ih =>
      intro c0
      rcases h : d.find? i with _ | n
      · have hstep : toCircuitStep d c0 i = c0 := by
          unfold toCircuitStep
          rw [h]
        rw [List.foldl_cons, hstep]
        rcases ih c0 with ⟨h1, h2⟩
        refine ⟨?_, h2⟩
        rw [h1]
        simp [h]
      · have hstep : toCircuitStep d c0 i
            = c0.addGate ⟨n.gate.type, n.gate.qubits, n.gate.parameter, 0⟩ := by
          unfold toCircuitStep
          rw [h]
        rw [List.foldl_cons, hstep]
        rcases ih (c0.addGate ⟨n.gate.type, n.gate.qubits, n.gate.parameter, 0⟩)
          with ⟨h1, h2⟩
        constructor
        · rw [h1]
          simp [Circuit.addGate, Gate.core, h]
        · rw [h2]
          rfl

/-- Emitting every stored key once recovers the stored gate contents. -/
theorem nodes_filterMap_core (d : DAG) (l : List (Nat × DAGNode))
    (hl : ∀ p ∈ l, d.find? p.1 = some p.2) :
    l.filterMap (fun p => (d.find? p.1).map (fun n => n.gate.core))
      = l.map (fun p => p.2.gate.core) := by
  induction l with
  | nil => rfl
  | cons p rest ih =>
      have hp := hl p (by simp)
      simp [hp, ih (fun q hq => hl q (by simp [hq]))]

/-- Claim C8 (amended): on every DAG satisfying the structural invariant
(as every DAG built by `fromCircuit` from a well-formed circuit does),
`DAG::topologicalOrder` succeeds and returns a valid linearization: a
permutation of the node ids in which every node appears after all of its
predecessors.  (The tie-break among simultaneously ready nodes is FIFO
insertion order, not smallest gate-id; see the counterexample.) -/
theorem topologicalOrder_valid_linearization (d : DAG) (hinv : d.Inv) :
    ∃ out, d.topologicalOrder = .ok out ∧ out.Perm (keys d) ∧ Resp d out :=
  ⟨d.topologicalOrderRaw, topologicalOrder_ok d hinv,
    (topologicalOrderRaw_spec d hinv).1, (topologicalOrderRaw_spec d hinv).2⟩

/-- Witness for the amended C8 theorem at the concrete DAG of
`CX(0,1); H(0); H(0); H(1)`. -/
theorem topologicalOrder_valid_linearization_witness :
    dagC8.Inv ∧
    ∃ out, dagC8.topologicalOrder = .ok out ∧ out.Perm (keys dagC8) ∧
      Resp dagC8 out :=
  ⟨by decide, topologicalOrder_valid_linearization dagC8 (by decide)⟩

/-- Claim C6: for every well-formed circuit `c`, the round trip
`DAG::fromCircuit(c).toCircuit()` succeeds and preserves the qubit count,
the gate count, and the multiset of gate contents -- kind, ordered operand
tuple, and exact angle parameter (`Gate.core`); only gate ids are
re-assigned. -/
theorem dag_roundtrip (c : Circuit) (hw : Circuit.WF c) :
    ∃ c', (DAG.fromCircuit c).toCircuit = .ok c' ∧
      c'.numQubits = c.numQubits ∧
      c'.gates.length = c.gates.length ∧
      (c'.gates.map Gate.core).Perm (c.gates.map Gate.core) := by
  have hreach := fromCircuit_reachInv c hw
  have hinv : (DAG.fromCircuit c).Inv := hreach.1
  set d := DAG.fromCircuit c with hd
  obtain ⟨hcontent, hnq⟩ := toCircuitFold_spec d d.topologicalOrderRaw
    ({ numQubits := d.numQubits } : Circuit)
  have hperm0 : d.topologicalOrderRaw.Perm (keys d) :=
    (topologicalOrderRaw_spec d hinv).1
  have hlook : ∀ p ∈ d.nodes, d.find? p.1 = some p.2 := by
    intro p hp
    exact mem_lookup d.nodes p.1 p.2 hinv.1 hp
  have hfm : (keys d).filterMap
      (fun i => (d.find? i).map (fun n => n.gate.core))
      = d.nodes.map (fun p => p.2.gate.core) := by
    show (d.nodes.map (·.1)).filterMap
      (fun i => (d.find? i).map (fun n => n.gate.core)) = _
    rw [List.filterMap_map]
    exact nodes_filterMap_core d d.nodes hlook
  have hperm : ((d.topologicalOrderRaw.foldl (toCircuitStep d)
      ({ numQubits := d.numQubits } : Circuit)).gates.map Gate.core).Perm
      (c.gates.map Gate.core) := by
    rw [hcontent]
    simp only [List.nil_append]
    calc (d.topologicalOrderRaw.filterMap
          (fun i => (d.find? i).map (fun n => n.gate.core))).Perm
          ((keys d).filterMap
            (fun i => (d.find? i).map (fun n => n.gate.core))) :=
          hperm0.filterMap _
      _ = _ := by rw [hfm, fromCircuit_core c hw]
  refine ⟨d.topologicalOrderRaw.foldl (toCircuitStep d)
    ({ numQubits := d.numQubits } : Circuit), toCircuit_eq d hinv, ?_, ?_, hperm⟩
  · rw [hnq]
    exact fromCircuit_numQubits c
  · have := hperm.length_eq
    simpa using this

/-- Witness for the C6 theorem at the concrete circuit `H 0; CX 0 1; X 1`. -/
theorem dag_roundtrip_witness :
    Circuit.WF circC6 ∧
    ∃ c', (DAG.fromCircuit circC6).toCircuit = .ok c' ∧
      c'.numQubits = circC6.numQubits ∧
      c'.gates.length = circC6.gates.length ∧
      (c'.gates.map Gate.core).Perm (circC6.gates.map Gate.core) :=
  ⟨by decide, dag_roundtrip circC6 (by decide)⟩

end KahnTheory

section RouterTheory

/-- Well-formedness of a `Topology` as established by its constructor and
`addEdge`: one adjacency list per qubit, every listed neighbor in range. -/
def Topology.WF (t : Topology) : Prop :=
  t.adjacency.length = t.numQubits ∧
  ∀ l ∈ t.adjacency, ∀ v ∈ l, v < t.numQubits

instance (t : Topology) : Decidable t.WF := by
  unfold Topology.WF
  infer_instance

/-- Claim C1's property of a routed circuit: every two-qubit gate acts on a
directly connected pair of physical qubits. -/
def routedOK (t : Topology) (c : Circuit) : Prop :=
  ∀ g ∈ c.gates, g.qubits.length = 2 →
    t.connected (g.qubits.getD 0 0) (g.qubits.getD 1 0) = true

instance (t : Topology) (c : Circuit) : Decidable (routedOK t c) := by
  unfold routedOK
  infer_instance

/-- Invariant of the parent array built by `spLoop`: every recorded parent
edge is either the root's self-loop or an actual adjacency. -/
def ParentInv (t : Topology) (src : Nat) (parent : List (Option Nat)) : Prop :=
  ∀ v u, parent.getD v none = some u → (v = src ∧ u = src) ∨ v ∈ t.neighbors u

/-- Invariant of the running best candidate in `selectBestSwap`: any
candidate pair is an edge of the topology. -/
def SwapInv (t : Topology) (o : Option (ℚ × Nat × Nat)) : Prop :=
  ∀ s x y, o = some (s, x, y) → y ∈ t.neighbors x

/-- Out-of-range `getD` returns the default. -/
theorem getD_oob {α : Type} (l : List α) (n : Nat) (d : α)
    (h : l.length ≤ n) : l.getD n d = d := by
  induction l generalizing n with
  | nil => simp
  | cons a as ih =>
      cases n with
      | zero => simp at h
      | succ m =>
          simp only [List.getD_cons_succ]
          exact ih m (by simpa using h)

/-- A listed neighbor is `connected` on a well-formed topology. -/
theorem neighbors_connected (t : Topology) (hwf : t.WF) (p nb : Nat)
    (h : nb ∈ t.neighbors p) : t.connected p nb = true := by
  unfold Topology.neighbors at h
  have hp : p < t.adjacency.length := by
    by_contra hge
    rw [getD_oob t.adjacency p [] (by omega)] at h
    cases h
  have hmem : t.adjacency.getD p [] ∈ t.adjacency := by
    rw [List.getD_eq_getElem t.adjacency [] hp]
    exact List.getElem_mem hp
  have hnb : nb < t.numQubits := hwf.2 _ hmem nb h
  have hpn : p < t.numQubits := hwf.1 ▸ hp
  unfold Topology.connected
  have hc : (decide (p ≥ t.numQubits) || decide (nb ≥ t.numQubits)) = false := by
    have e1 : decide (p ≥ t.numQubits) = false := decide_eq_false (by omega)
    have e2 : decide (nb ≥ t.numQubits) = false := decide_eq_false (by omega)
    rw [e1, e2]
    rfl
  simp only [hc, Bool.false_eq_true, if_false]
  by_cases hpq : p = nb
  · simp [hpq]
  · have hb : (p == nb) = false := by simpa using hpq
    have h3 : nb ∈ t.adjacency[p]?.getD [] := by
      rw [List.getElem?_eq_getElem hp]
      rw [List.getD_eq_getElem t.adjacency [] hp] at h
      exact h
    simp [hb, h3]

/-- Appending a gate keeps a routed circuit `routedOK` when the new gate is
itself connected (or not two-qubit). -/
theorem addGate_routedOK (t : Topology) (c : Circuit) (g : Gate)
    (hc : routedOK t c)
    (hg : g.qubits.length = 2 →
      t.connected (g.qubits.getD 0 0) (g.qubits.getD 1 0) = true) :
    routedOK t (c.addGate g) := by
  intro g' hg' hlen
  unfold Circuit.addGate at hg'
  simp only [List.mem_append, List.mem_singleton] at hg'
  rcases hg' with h1 | h1
  · exact hc g' h1 hlen
  · subst h1
    exact hg (by simpa using hlen)

/-- The front-layer scan of `routeForward` only emits connected gates. -/
theorem scanFold_routedOK (d : DAG) (t : Topology) (mapping : List Nat)
    (front : List Nat) :
    ∀ acc : List Nat × List Nat × Circuit, routedOK t acc.2.2 →
    routedOK t (front.foldl (scanStep d t mapping) acc).2.2 := by
  induction front with
  | nil => intro acc h; exact h
  | cons id rest ih =>
      intro acc h
      rw [List.foldl_cons]
      apply ih
      unfold scanStep
      rcases hf : d.find? id with _ | n
      · exact h
      · simp only
        by_cases h1 : n.gate.qubits.length = 1
        · have hb : (n.gate.qubits.length == 1) = true := by simpa using h1
          rw [if_pos hb]
          refine addGate_routedOK t acc.2.2 _ h ?_
          intro hlen
          simp at hlen
        · have hb : (n.gate.qubits.length == 1) = false := by simpa using h1
          rw [if_neg (by simp [hb])]
          by_cases hc : t.connected (mapping.getD (n.gate.qubits.getD 0 0) 0)
              (mapping.getD (n.gate.qubits.getD 1 0) 0) = true
          · rw [if_pos hc]
            refine addGate_routedOK t acc.2.2 _ h ?_
            intro _
            simpa using hc
          · rw [if_neg hc]
            exact h

/-- The per-edge candidate fold of `selectBestSwap` preserves `SwapInv` when
scanning a sublist of the neighbors of `p`. -/
theorem swapCandFold_inv (d : DAG) (t : Topology) (mapping : List Nat)
    (front : List Nat) (executed : List Nat) (la : Nat) (df ew : ℚ)
    (p : Nat) (ns : List Nat) (hns : ∀ nb ∈ ns, nb ∈ t.neighbors p) :
    ∀ best, SwapInv t best →
    SwapInv t (ns.foldl (swapCandStep d t mapping front executed la df ew p)
      best) := by
  induction ns with
  | nil => intro best h; exact h
  | cons nb rest ih =>
      intro best h
      rw [List.foldl_cons]
      refine ih (fun x hx => hns x (by simp [hx])) _ ?_
      rcases best with _ | ⟨bs, bp⟩
      · intro s x y hxy
        unfold swapCandStep at hxy
        simp only [Option.some.injEq, Prod.mk.injEq] at hxy
        obtain ⟨h1, h2, h3⟩ := hxy
        subst h2
        subst h3
        exact hns nb (by simp)
      · by_cases hlt : scoreSwap p nb d t mapping front executed la df ew < bs
        · intro s x y hxy
          unfold swapCandStep at hxy
          simp only [if_pos hlt, Option.some.injEq, Prod.mk.injEq] at hxy
          obtain ⟨h1, h2, h3⟩ := hxy
          subst h2
          subst h3
          exact hns nb (by simp)
        · intro s x y hxy
          unfold swapCandStep at hxy
          simp only [if_neg hlt] at hxy
          exact h s x y hxy

/-- The per-active-qubit fold of `selectBestSwap` preserves `SwapInv`. -/
theorem swapBestFold_inv (d : DAG) (t : Topology) (mapping : List Nat)
    (front : List Nat) (executed : List Nat) (la : Nat) (df ew : ℚ)
    (active : List Nat) :
    ∀ best, SwapInv t best →
    SwapInv t (active.foldl (swapBestStep d t mapping front executed la df ew)
      best) := by
  induction active with
  | nil => intro best h; exact h
  | cons p rest ih =>
      intro best h
      rw [List.foldl_cons]
      refine ih _ ?_
      unfold swapBestStep
      exact swapCandFold_inv d t mapping front executed la df ew p
        (t.neighbors p) (fun _ hx => hx) best h

/-- A swap chosen by `selectBestSwap` is an edge of the topology. -/
theorem selectBestSwap_neighbor (d : DAG) (t : Topology) (mapping : List Nat)
    (front : List Nat) (executed : List Nat) (la : Nat) (df ew : ℚ)
    (a b : Nat)
    (h : selectBestSwap d t mapping front executed la df ew = some (a, b)) :
    b ∈ t.neighbors a := by
  unfold selectBestSwap at h
  simp only [Option.map_eq_some'] at h
  obtain ⟨pr, hbest, hpr⟩ := h
  have h0 : SwapInv t (none : Option (ℚ × Nat × Nat)) :=
    fun s x y hxy => by cases hxy
  have hres := swapBestFold_inv d t mapping front executed la df ew _ none h0
    pr.1 pr.2.1 pr.2.2 (by rw [hbest])
  have e1 : pr.2.1 = a := by rw [hpr]
  have e2 : pr.2.2 = b := by rw [hpr]
  rw [e1, e2] at hres
  exact hres

/-- New parent entries written by the relaxation fold point from a neighbor
of `cur` back to `cur`; all other entries are unchanged. -/
theorem spRelaxFold_parent (cur : Nat) (ns : List Nat) :
    ∀ (st : List (Option Nat) × List Nat) (v u : Nat),
    (ns.foldl (spRelaxStep cur) st).1.getD v none = some u →
    st.1.getD v none = some u ∨ (u = cur ∧ v ∈ ns) := by
  induction ns with
  | nil => intro st v u h; exact Or.inl h
  | cons nb rest ih =>
      intro st v u h
      rw [List.foldl_cons] at h
      rcases ih (spRelaxStep cur st nb) v u h with h1 | h1
      · unfold spRelaxStep at h1
        by_cases hvac : ((st.1.getD nb none).isNone : Bool)
        · rw [if_pos hvac] at h1
          by_cases hv : v = nb
          · subst hv
            by_cases hlt : v < st.1.length
            · rw [getD_set_self st.1 v (some cur) none hlt] at h1
              exact Or.inr ⟨(Option.some_injective _ h1).symm, by simp⟩
            · rw [set_oob st.1 v (some cur) (by omega)] at h1
              exact Or.inl h1
          · rw [getD_set_ne st.1 nb v (some cur) none hv] at h1
            exact Or.inl h1
        · rw [if_neg hvac] at h1
          exact Or.inl h1
      · exact Or.inr ⟨h1.1, by simp [h1.2]⟩

/-- The queue loop of `shortestPath` preserves the parent invariant. -/
theorem spLoop_parentInv (t : Topology) (target src : Nat) :
    ∀ (fuel : Nat) (queue : List Nat) (parent : List (Option Nat)),
    ParentInv t src parent →
    ParentInv t src (t.spLoop target fuel queue parent) := by
  intro fuel
  induction fuel with
  | zero => intro queue parent h; exact h
  | succ fuel ih =>
      intro queue parent h
      rcases queue with _ | ⟨cur, rest⟩
      · exact h
      · unfold Topology.spLoop
        by_cases hc : ((cur == target) : Bool)
        · rw [if_pos hc]
          exact h
        · rw [if_neg hc]
          refine ih _ _ ?_
          intro v u hvu
          rcases spRelaxFold_parent cur (t.neighbors cur) (parent, []) v u hvu
            with h1 | h1
          · exact h v u h1
          · exact Or.inr (h1.1 ▸ h1.2)

/-- The reconstruction loop of `shortestPath` either stopped immediately or
ends with a vertex whose recorded parent is `src`. -/
theorem spBuild_spec (parent : List (Option Nat)) (src : Nat) :
    ∀ (fuel cur : Nat) (acc raw : List Nat),
    spBuild parent src fuel cur acc = some raw →
    (cur = src ∧ raw = acc) ∨
    (∃ v, raw.getLast? = some v ∧ parent.getD v none = some src) := by
  intro fuel
  induction fuel with
  | zero => intro cur acc raw h; cases h
  | succ fuel ih =>
      intro cur acc raw h
      unfold spBuild at h
      by_cases hc : cur = src
      · have hb : (cur == src) = true := by simpa using hc
        rw [if_pos hb] at h
        exact Or.inl ⟨hc, (Option.some_injective _ h).symm⟩
      · have hb : (cur == src) = false := by simpa using hc
        rw [if_neg (by simp [hb])] at h
        rcases hp : parent.getD cur none with _ | p
        · rw [hp] at h
          cases h
        · rw [hp] at h
          rcases ih p (acc ++ [cur]) raw h with ⟨hps, hraw⟩ | h1
          · refine Or.inr ⟨cur, ?_, ?_⟩
            · rw [hraw]
              simp
            · rw [hp, hps]
          · exact Or.inr h1

/-- The first hop of a reconstructed shortest path is an edge of a
well-formed topology. -/
theorem shortestPath_adjacent (t : Topology) (hwf : t.WF) (src dst : Nat)
    (path : List Nat) (h : t.shortestPath src dst = some path)
    (hlen : 2 ≤ path.length) :
    t.connected (path.getD 0 0) (path.getD 1 0) = true := by
  unfold Topology.shortestPath at h
  by_cases hr : ((src ≥ t.numQubits || dst ≥ t.numQubits) : Bool)
  · rw [if_pos hr] at h
    cases h
  · rw [if_neg hr] at h
    have hsrc : src < t.numQubits := by
      by_contra hcon
      apply hr
      simp only [Bool.or_eq_true, decide_eq_true_eq]
      exact Or.inl (by omega)
    by_cases hsd : ((src == dst) : Bool)
    · rw [if_pos hsd] at h
      have : path = [src] := (Option.some_injective _ h).symm
      rw [this] at hlen
      simp at hlen
    · rw [if_neg hsd] at h
      simp only at h
      by_cases hdn : (((t.spLoop dst t.numQubits [src]
          ((List.replicate t.numQubits (none : Option Nat)).set src
            (some src))).getD dst none).isNone : Bool)
      · rw [if_pos hdn] at h
        cases h
      · rw [if_neg hdn] at h
        rcases Option.map_eq_some'.mp h with ⟨raw, hbuild, hpath⟩
        have hinit : ParentInv t src
            ((List.replicate t.numQubits (none : Option Nat)).set src
              (some src)) := by
          intro v u hvu
          by_cases hv : v = src
          · rw [hv] at hvu
            rw [getD_set_self (List.replicate t.numQubits (none : Option Nat))
              src (some src) none (by simpa using hsrc)] at hvu
            exact Or.inl ⟨hv, (Option.some_injective _ hvu).symm⟩
          · rw [getD_set_ne _ src v (some src) none hv] at hvu
            have hnone : (List.replicate t.numQubits
                (none : Option Nat)).getD v none = none := by
              rcases hg : (List.replicate t.numQubits
                  (none : Option Nat)).get? v with _ | w
              · simp [List.getD, hg]
              · have hw : w ∈ List.replicate t.numQubits (none : Option Nat) :=
                  List.get?_mem hg
                have hwn := List.eq_of_mem_replicate hw
                simp [List.getD, hg, hwn]
            rw [hnone] at hvu
            cases hvu
        have hpinv : ParentInv t src (t.spLoop dst t.numQubits [src]
            ((List.replicate t.numQubits (none : Option Nat)).set src
              (some src))) :=
          spLoop_parentInv t dst src t.numQubits [src] _ hinit
        rcases spBuild_spec _ src (t.numQubits + 1) dst [] raw hbuild
          with ⟨hds, _⟩ | ⟨v, hlast, hpv⟩
        · exact absurd hds.symm (by simpa using hsd)
        · have hrawne : raw ≠ [] := by
            intro hcon
            rw [hcon] at hlast
            cases hlast
          have hpe : path = src :: raw.reverse := by
            rw [← hpath, List.reverse_append]
            rfl
          have hhd : raw.reverse.head? = some v := by
            rw [List.head?_reverse]
            exact hlast
          rcases hrv : raw.reverse with _ | ⟨v', tl⟩
          · rw [hrv] at hhd
            cases hhd
          · rw [hrv] at hhd
            have hv' : v' = v := by
              simpa using hhd
            have h0 : path.getD 0 0 = src := by
              rw [hpe]
              rfl
            have h1 : path.getD 1 0 = v := by
              rw [hpe, hrv]
              simpa using hv'
            rw [h0, h1]
            rcases hpinv v src hpv with ⟨hv1, _⟩ | hv2
            · rw [hv1]
              unfold Topology.connected
              have hc : (decide (src ≥ t.numQubits)
                  || decide (src ≥ t.numQubits)) = false := by
                rw [decide_eq_false (by omega)]
                rfl
              simp only [hc, Bool.false_eq_true, if_false]
              simp
            · exact neighbors_connected t hwf src v hv2

/-- Every iteration of the `routeForward` loop preserves `routedOK`: the
scan only emits connected two-qubit gates, and both SWAP-insertion sites
place the SWAP on an edge of the topology. -/
theorem routeForwardLoop_routedOK (d : DAG) (t : Topology) (la : Nat)
    (df ew : ℚ) (hwf : t.WF) :
    ∀ (fuel : Nat) (st st' : RouteState),
    routeForwardLoop d t la df ew fuel st = some st' →
    routedOK t st.routed → routedOK t st'.routed := by
  intro fuel
  induction fuel with
  | zero =>
      intro st st' h hok
      unfold routeForwardLoop at h
      split at h
      · cases h
        exact hok
      · cases h
  | succ fuel ih =>
      intro st st' h hok
      unfold routeForwardLoop at h
      split at h
      · cases h
        exact hok
      · simp only at h
        have hscanOK := scanFold_routedOK d t st.mapping st.front
          ([], [], st.routed) hok
        split at h
        · exact ih _ _ h hscanOK
        · split at h
          · rename_i a b heq
            have hconn : t.connected a b = true :=
              neighbors_connected t hwf a b
                (selectBestSwap_neighbor d t st.mapping _ st.executed
                  la df ew a b heq)
            refine ih _ _ h ?_
            exact addGate_routedOK t _ (Gate.swapG a b) hscanOK
              (fun _ => hconn)
          · split at h
            · exact ih _ _ h hscanOK
            · split at h
              · cases h
              · split at h
                · cases h
                · rename_i n hfind path hsp
                  split at h
                  · rename_i hpl
                    have hadj := shortestPath_adjacent t hwf _ _ path hsp hpl
                    refine ih _ _ h ?_
                    exact addGate_routedOK t _
                      (Gate.swapG (path.getD 0 0) (path.getD 1 0)) hscanOK
                      (fun _ => hadj)
                  · exact ih _ _ h hscanOK

/-- An `Except` whose `toOption` is `some` is `ok`. -/
theorem except_ok_of_toOption {ε α : Type} (e : Except ε α) (a : α)
    (h : e.toOption = some a) : e = .ok a := by
  cases e with
  | error err => cases h
  | ok v =>
      have : v = a := by
        simpa [Except.toOption] using h
      rw [this]

/-- Claim C1: whenever `SabreRouter::route` returns a routing result on a
well-formed topology, every two-qubit gate of the routed circuit (executed
gates and inserted SWAPs alike) acts on a pair of physical qubits that are
directly `connected` in the topology. -/
theorem sabre_routed_gates_connected (fuel : Nat) (c : Circuit) (t : Topology)
    (hwf : t.WF) (res : RoutingResult)
    (h : sabreRoute fuel c t = .ok (some res)) :
    routedOK t res.routedCircuit := by
  unfold sabreRoute at h
  split at h
  · cases h
  · split at h
    · have hres : res = { routedCircuit := { numQubits := c.numQubits }, initialMapping := identityMapping c.numQubits, finalMapping := identityMapping c.numQubits, swapsInserted := 0, originalDepth := 0, finalDepth := 0 } := by
        have h1 := Except.ok.inj h
        have h2 := Option.some.inj h1
        rw [h2]
      rw [hres]
      intro g hg hlen
      cases hg
    · simp only at h
      split at h
      · cases h
      · rename_i st hloop
        have h1 := Except.ok.inj h
        have h2 := Option.some.inj h1
        have hres : res.routedCircuit = st.routed := by
          rw [← h2]
        rw [hres]
        refine routeForwardLoop_routedOK (DAG.fromCircuit c) t 20
          (1/2 : ℚ) (1/2 : ℚ) hwf fuel _ st hloop ?_
        intro g hg hlen
        cases hg

/-- The topology of the C1 witness: the 4-qubit line `0 - 1 - 2 - 3`. -/
def tC1 : Topology := Topology.linear 4

/-- The circuit of the C1 witness: a single `CX 0 3` between the two line
ends, forcing two SWAP insertions. -/
def circC1 : Circuit := Circuit.ofGates 4 [Gate.cnot 0 3]

/-- The routing result `sabreRoute 50 circC1 tC1` actually produces. -/
def resC1 : RoutingResult :=
  { routedCircuit :=
      { numQubits := 4
        gates := [⟨.SWAP, [0, 1], none, 0⟩, ⟨.SWAP, [1, 2], none, 1⟩,
          ⟨.CNOT, [2, 3], none, 2⟩]
        nextGateId := 3 }
    initialMapping := [0, 1, 2, 3]
    finalMapping := [2, 0, 1, 3]
    swapsInserted := 2
    originalDepth := 1
    finalDepth := 3 }

unseal Rat.add Rat.mul Rat.inv in
/-- Witness for the C1 theorem: routing `CX 0 3` on the 4-qubit line inserts
`SWAP(0,1); SWAP(1,2)` and executes `CX(2,3)`, all on edges of the line.
(The `unseal` lets the evaluator unfold the sealed rational arithmetic.) -/
theorem sabre_routed_gates_connected_witness :
    Topology.WF tC1 ∧ routedOK tC1 resC1.routedCircuit :=
  ⟨by decide, sabre_routed_gates_connected 50 circC1 tC1 (by decide) resC1
    (except_ok_of_toOption _ _ (by decide))⟩

end RouterTheory

end QOpt
